import Mathlib

/-!
A formal model of the `minemind` Minesweeper engine and its deductive solver,
together with theorems checking the behavioural properties stated in the
project specification.  The definitions below are shallow embeddings of the
Python sources:

* `minemind/core/board.py`   — `Cell`, `Board`, `_get_config`, `_place_mines`,
  `_calculate_neighbor_counts`, `reveal`, `flag`, `_flood_reveal`,
  `_check_win_condition`;
* `minemind/core/solver.py`  — `MinemindSolver._get_frontier_cells`,
  `solve_step`, `_find_subset_deductions`;
* `minemind/core/frontier.py` — `FrontierCellView`, `iter_frontier_cells`,
  `collect_frontier`;
* `minemind/core/rules.py`   — `apply_trivial_rules`, `apply_subset_rules`.

Python integers are modelled by `Int` (counts that are provably non-negative
by `Nat`), mutable objects by explicit state passing, `random.sample` by an
explicit list parameter constrained where a theorem needs it, and the float
expression `math.floor(total * 0.15)` by the exact value `3 * total / 20`.
-/

namespace Minemind

/-- A board coordinate, `(row, col)`, as a pair of Python integers. -/
abbrev Coord := Int × Int

/-- `Cell` from `board.py`: the state of one square. -/
structure Cell where
  is_mine : Bool
  neighbor_mines : Nat
  is_revealed : Bool
  is_flagged : Bool
deriving DecidableEq

/-- The default `Cell()` constructed in `Board.__init__`. -/
def defaultCell : Cell := ⟨false, 0, false, false⟩

/-- `Board` from `board.py`: dimensions, mine count, game state
(`"PLAYING"`, `"WON"` or `"LOST"` as in the source), the deferred-placement
flag and the grid.  The grid is modelled as a total function on coordinates;
the Python code only ever reads or writes in-bounds entries. -/
structure Board where
  rows : Int
  cols : Int
  mines : Int
  state : String
  mines_placed : Bool
  cells : Coord → Cell

/-- The eight neighbour offsets, in the iteration order of
`_get_neighbors_coords` (`dr` outer, `dc` inner, skipping `(0,0)`). -/
def neighborOffsets : List (Int × Int) :=
  [(-1, -1), (-1, 0), (-1, 1), (0, -1), (0, 1), (1, -1), (1, 0), (1, 1)]

/-- `Board._get_neighbors_coords`: all in-bounds neighbours of `(r, c)`. -/
def getNeighborsCoords (rows cols r c : Int) : List Coord :=
  (neighborOffsets.map (fun d => (r + d.1, c + d.2))).filter
    (fun p => decide (0 ≤ p.1 ∧ p.1 < rows ∧ 0 ≤ p.2 ∧ p.2 < cols))

/-- `Board._get_neighbors_coords` as a method. -/
def Board.getNeighbors (b : Board) (r c : Int) : List Coord :=
  getNeighborsCoords b.rows b.cols r c

/-- The row-major list of all in-bounds coordinates,
`[(r, c) for r in range(rows) for c in range(cols)]`. -/
def allCoords (rows cols : Int) : List Coord :=
  (List.range rows.toNat).flatMap
    (fun r => (List.range cols.toNat).map (fun c => (Int.ofNat r, Int.ofNat c)))

/-- `STANDARD_CONFIGS` as the lookup function of the Python dict. -/
def standardConfig : String → Option (Int × Int × Int)
  | "beginner" => some (9, 9, 10)
  | "intermediate" => some (16, 16, 40)
  | "expert" => some (30, 16, 99)
  | _ => none

/-- `Board._get_config`.  The float expression
`math.floor(total_cells * 0.15)` is modelled exactly as `3 * total / 20`. -/
def getConfig (rows cols mines : Option Int) (difficulty : String) :
    Int × Int × Int :=
  if (standardConfig difficulty).isSome ∧ rows = none ∧ cols = none then
    (standardConfig difficulty).getD (9, 9, 10)
  else if standardConfig difficulty = none ∧ rows = none ∧ cols = none then
    (9, 9, 10)
  else
    let finalRows : Int := match rows with
      | some r => if r > 0 then r else 9
      | none => 9
    let finalCols : Int := match cols with
      | some c => if c > 0 then c else 9
      | none => 9
    let total := finalRows * finalCols
    let m0 : Int := match mines with
      | some m => m
      | none => 3 * total / 20
    let m1 : Int := if m0 > total - 1 then total - 1 else m0
    let m2 : Int := if m1 < 0 then 0 else m1
    (finalRows, finalCols, m2)

/-- `Board.__init__`: resolve the configuration and build a fresh grid of
default cells in the `"PLAYING"` state with no mines placed. -/
def Board.init (rows cols mines : Option Int) (difficulty : String) : Board :=
  let cfg := getConfig rows cols mines difficulty
  { rows := cfg.1
    cols := cfg.2.1
    mines := cfg.2.2
    state := "PLAYING"
    mines_placed := false
    cells := fun _ => defaultCell }

/-- Mark a cell revealed (`cell.is_revealed = True`). -/
def revealCell (cell : Cell) : Cell := { cell with is_revealed := true }

/-- Write one grid entry (`self.cells[r][c] = ...` / attribute mutation). -/
def Board.setCell (b : Board) (p : Coord) (cell : Cell) : Board :=
  { b with cells := fun q => if q = p then cell else b.cells q }

/-- Number of in-bounds cells that are not yet revealed (termination measure
for the flood-fill loop). -/
def hiddenCount (b : Board) : Nat :=
  (allCoords b.rows b.cols).countP (fun p => !(b.cells p).is_revealed)

/-- One iteration of the neighbour loop in `_flood_reveal`: walk the
neighbour list, revealing each hidden unflagged cell and collecting the
newly revealed zero-count cells for the queue (in order). -/
def processNeighbors (b : Board) (ns : List Coord) (acc : List Coord) :
    Board × List Coord :=
  match ns with
  | [] => (b, acc)
  | p :: rest =>
    let cell := b.cells p
    if cell.is_revealed || cell.is_flagged then processNeighbors b rest acc
    else
      let b' := b.setCell p (revealCell cell)
      if cell.neighbor_mines = 0 then processNeighbors b' rest (acc ++ [p])
      else processNeighbors b' rest acc

theorem mem_allCoords (R C r c : Int) :
    (r, c) ∈ allCoords R C ↔ 0 ≤ r ∧ r < R ∧ 0 ≤ c ∧ c < C := by
  unfold allCoords
  rw [List.mem_flatMap]
  constructor
  · rintro ⟨a, ha, hmem⟩
    rw [List.mem_map] at hmem
    obtain ⟨b, hb, h⟩ := hmem
    rw [List.mem_range] at ha hb
    have h1 : Int.ofNat a = r := congrArg Prod.fst h
    have h2 : Int.ofNat b = c := congrArg Prod.snd h
    simp only [Int.ofNat_eq_natCast] at h1 h2
    omega
  · rintro ⟨h1, h2, h3, h4⟩
    refine ⟨r.toNat, by rw [List.mem_range]; omega, ?_⟩
    rw [List.mem_map]
    refine ⟨c.toNat, by rw [List.mem_range]; omega, ?_⟩
    rw [Prod.mk.injEq]
    simp only [Int.ofNat_eq_natCast]
    constructor
    · omega
    · omega

theorem mem_allCoords' (R C : Int) (p : Coord) :
    p ∈ allCoords R C ↔ 0 ≤ p.1 ∧ p.1 < R ∧ 0 ≤ p.2 ∧ p.2 < C := by
  obtain ⟨r, c⟩ := p
  exact mem_allCoords R C r c

theorem allCoords_nodup (R C : Int) : (allCoords R C).Nodup := by
  unfold allCoords
  refine List.nodup_flatMap.2 ⟨?_, ?_⟩
  · intro r _
    refine List.Nodup.map ?_ (List.nodup_range _)
    intro a b h
    simpa using h
  · refine (List.nodup_range _).imp ?_
    intro a b hab
    simp only [Function.onFun]
    intro x h1 h2
    simp only [List.mem_map] at h1 h2
    obtain ⟨c1, _, rfl⟩ := h1
    obtain ⟨c2, _, h⟩ := h2
    have hfst : Int.ofNat b = Int.ofNat a := congrArg Prod.fst h
    simp only [Int.ofNat_eq_natCast] at hfst
    exact hab (by omega)

theorem getNeighbors_mem_allCoords (b : Board) (r c : Int) :
    ∀ p ∈ b.getNeighbors r c, p ∈ allCoords b.rows b.cols := by
  intro p hp
  simp only [Board.getNeighbors, getNeighborsCoords, List.mem_filter,
    decide_eq_true_eq] at hp
  exact (mem_allCoords' _ _ p).mpr hp.2

theorem countP_set_unrevealed (l : List Coord) (hn : l.Nodup) (p : Coord)
    (hp : p ∈ l) (f g : Coord → Bool) (hf : f p = true) (hg : g p = false)
    (hfg : ∀ q, q ≠ p → g q = f q) : l.countP g + 1 = l.countP f := by
  induction l with
  | nil => cases hp
  | cons a t ih =>
    rcases List.mem_cons.mp hp with h | h
    · subst h
      have hnt : p ∉ t := (List.nodup_cons.mp hn).1
      have : t.countP g = t.countP f := by
        apply List.countP_congr
        intro q hq
        rw [hfg q (by rintro rfl; exact hnt hq)]
      simp [List.countP_cons, hf, hg, this]
    · have ha : a ≠ p := by rintro rfl; exact (List.nodup_cons.mp hn).1 h
      have := ih (List.nodup_cons.mp hn).2 h
      simp only [List.countP_cons, hfg a ha]
      omega

theorem hiddenCount_setCell_reveal (b : Board) (p : Coord)
    (hin : p ∈ allCoords b.rows b.cols) (hhid : (b.cells p).is_revealed = false) :
    hiddenCount (b.setCell p (revealCell (b.cells p))) + 1 = hiddenCount b := by
  unfold hiddenCount Board.setCell
  apply countP_set_unrevealed _ (allCoords_nodup _ _) p hin
  · simp [hhid]
  · simp [revealCell]
  · intro q hq
    simp [hq]

theorem processNeighbors_measure (ns : List Coord) (b : Board) (acc : List Coord)
    (hns : ∀ p ∈ ns, p ∈ allCoords b.rows b.cols) :
    hiddenCount (processNeighbors b ns acc).1 + (processNeighbors b ns acc).2.length ≤
      hiddenCount b + acc.length ∧
    (processNeighbors b ns acc).1.rows = b.rows ∧
    (processNeighbors b ns acc).1.cols = b.cols := by
  induction ns generalizing b acc with
  | nil => simp [processNeighbors]
  | cons p rest ih =>
    simp only [processNeighbors]
    split
    · exact ih b acc (fun q hq => hns q (List.mem_cons_of_mem _ hq))
    · rename_i hskip
      rw [Bool.not_eq_true, Bool.or_eq_false_iff] at hskip
      have hrev : (b.cells p).is_revealed = false := hskip.1
      have hdec : hiddenCount (b.setCell p (revealCell (b.cells p))) + 1 =
          hiddenCount b :=
        hiddenCount_setCell_reveal b p (hns p (List.mem_cons_self p rest)) hrev
      have hsub : ∀ q ∈ rest,
          q ∈ allCoords (b.setCell p (revealCell (b.cells p))).rows
            (b.setCell p (revealCell (b.cells p))).cols :=
        fun q hq => hns q (List.mem_cons_of_mem _ hq)
      split
      · have h := ih (b.setCell p (revealCell (b.cells p))) (acc ++ [p]) hsub
        have hlen : (acc ++ [p]).length = acc.length + 1 := by simp
        exact ⟨by omega, h.2.1, h.2.2⟩
      · have h := ih (b.setCell p (revealCell (b.cells p))) acc hsub
        exact ⟨by omega, h.2.1, h.2.2⟩

/-- The `while queue:` loop of `_flood_reveal`: pop the front coordinate,
process its neighbours (revealing hidden unflagged ones, enqueueing the new
zero cells) and continue until the queue is empty. -/
def floodLoop (b : Board) (queue : List Coord) : Board :=
  match queue with
  | [] => b
  | p :: rest =>
    let pr := processNeighbors b (b.getNeighbors p.1 p.2) []
    floodLoop pr.1 (rest ++ pr.2)
termination_by 2 * hiddenCount b + queue.length
decreasing_by
  have h := processNeighbors_measure (b.getNeighbors p.1 p.2) b []
    (getNeighbors_mem_allCoords b p.1 p.2)
  simp only [List.length_nil, List.length_append, List.length_cons] at *
  omega

/-- `Board._flood_reveal(start_r, start_c)`. -/
def Board.floodReveal (b : Board) (r c : Int) : Board := floodLoop b [(r, c)]

/-- The safe zone of `_place_mines`: the clicked cell plus its neighbours. -/
def Board.safeCoords (b : Board) (safe : Coord) : List Coord :=
  safe :: b.getNeighbors safe.1 safe.2

/-- The candidate pool of `_place_mines`: all coordinates minus the safe
zone. -/
def Board.mineCandidates (b : Board) (safe : Coord) : List Coord :=
  (allCoords b.rows b.cols).filter (fun p => decide (¬ p ∈ b.safeCoords safe))

/-- `Board._place_mines(safe_r, safe_c)`.  The result of
`random.sample(mine_candidates, self.mines)` is passed in as `sample`;
theorems that depend on the sampling constrain it explicitly. -/
def Board.placeMines (b : Board) (safe : Coord) (sample : List Coord) : Board :=
  let candidates := b.mineCandidates safe
  let newMines : Int :=
    if b.mines > (candidates.length : Int) then (candidates.length : Int)
    else b.mines
  { b with
    mines := newMines
    mines_placed := true
    cells := fun p =>
      if p ∈ sample then { b.cells p with is_mine := true } else b.cells p }

/-- `Board._calculate_neighbor_counts`: recompute `neighbor_mines` for every
in-bounds non-mine cell. -/
def Board.calculateNeighborCounts (b : Board) : Board :=
  { b with
    cells := fun p =>
      if (0 ≤ p.1 ∧ p.1 < b.rows ∧ 0 ≤ p.2 ∧ p.2 < b.cols) ∧
          (b.cells p).is_mine = false then
        { b.cells p with
          neighbor_mines :=
            (getNeighborsCoords b.rows b.cols p.1 p.2).countP
              (fun q => (b.cells q).is_mine) }
      else b.cells p }

/-- `Board._check_win_condition`: count the hidden non-mine cells and switch
to `"WON"` when none remain. -/
def Board.checkWinCondition (b : Board) : Board :=
  if (allCoords b.rows b.cols).countP
      (fun p => !(b.cells p).is_revealed && !(b.cells p).is_mine) = 0 then
    { b with state := "WON" }
  else b

/-- The body of `Board.reveal` after its validation guards: deferred mine
placement, the lose check, the reveal with optional flood cascade, and the
win check (steps 2-5 of the method). -/
def Board.revealCore (b : Board) (r c : Int) (sample : List Coord) : Board :=
  let b1 :=
    if b.mines_placed = false then
      (b.placeMines (r, c) sample).calculateNeighborCounts
    else b
  let cell1 := b1.cells (r, c)
  if cell1.is_mine then
    { b1.setCell (r, c) (revealCell cell1) with state := "LOST" }
  else
    let b2 := b1.setCell (r, c) (revealCell cell1)
    let b3 := if cell1.neighbor_mines = 0 then b2.floodReveal r c else b2
    b3.checkWinCondition

/-- `Board.reveal(r, c)` (the `Board` class method): the validation guards
(step 1) followed by `revealCore` (steps 2-5). -/
def Board.reveal (b : Board) (r c : Int) (sample : List Coord) : Board :=
  if ¬(0 ≤ r ∧ r < b.rows ∧ 0 ≤ c ∧ c < b.cols ∧ b.state = "PLAYING") then b
  else if (b.cells (r, c)).is_revealed || (b.cells (r, c)).is_flagged then b
  else b.revealCore r c sample

/-- `Board.flag(r, c)` (the `Board` class method): toggle the flag of an
unrevealed cell while the game is `"PLAYING"` and the coordinate is in
bounds. -/
def Board.flag (b : Board) (r c : Int) : Board :=
  if b.state = "PLAYING" ∧ 0 ≤ r ∧ r < b.rows ∧ 0 ≤ c ∧ c < b.cols then
    let cell := b.cells (r, c)
    if cell.is_revealed then b
    else b.setCell (r, c) { cell with is_flagged := !cell.is_flagged }
  else b

/-- A solver move `(row, col, action)` with action `"REVEAL"` or `"FLAG"`,
the `SolverMove` tuple of `solver.py` and `rules.py`. -/
abbrev SolverMove := Int × Int × String

/-- Append a move unless it was emitted before.  In the Python sources every
`certain_moves.append(move)` / `moves.append(move)` is guarded by the same
`seen` set, so the seen set always equals the set of accumulated moves. -/
def pushMove (acc : List SolverMove) (m : SolverMove) : List SolverMove :=
  if m ∈ acc then acc else acc ++ [m]

/-- `pushMove` over a list of emissions. -/
def pushMoves (acc : List SolverMove) (ms : List SolverMove) : List SolverMove :=
  ms.foldl pushMove acc

/-- The hidden (unrevealed and not flagged) neighbours of `(r, c)`, in
neighbour-enumeration order.  Both `solve_step` and `iter_frontier_cells`
build this collection with the same `is_flagged` / `elif not is_revealed`
loop; Python stores it in a set and we keep the discovery order. -/
def hiddenNeighbors (b : Board) (r c : Int) : List Coord :=
  (b.getNeighbors r c).filter
    (fun q => !(b.cells q).is_flagged && !(b.cells q).is_revealed)

/-- The number of flagged neighbours of `(r, c)` (the `flagged_count`
accumulator of the same loop). -/
def flaggedNeighborCount (b : Board) (r c : Int) : Nat :=
  (b.getNeighbors r c).countP (fun q => (b.cells q).is_flagged)

/-- `MinemindSolver._get_frontier_cells`: revealed numbered cells with at
least one hidden neighbour, in row-major order. -/
def getFrontierCells (b : Board) : List Coord :=
  (allCoords b.rows b.cols).filter (fun p =>
    (b.cells p).is_revealed && decide (0 < (b.cells p).neighbor_mines) &&
      (b.getNeighbors p.1 p.2).any
        (fun q => !(b.cells q).is_revealed && !(b.cells q).is_flagged))

/-- The per-frontier-cell record built by `solve_step` (a Python dict with
keys `r`, `c`, `mines_needed` and `hidden_coords`). -/
structure FrontierData where
  r : Int
  c : Int
  mines_needed : Int
  hidden_coords : List Coord
deriving DecidableEq

/-- The body of the main loop of `solve_step` for one frontier cell:
collect the hidden/flagged neighbour state, apply the trivial flag rule and
the trivial reveal rule, and record the frontier data entry. -/
def trivialStep (b : Board) (st : List SolverMove × List FrontierData)
    (p : Coord) : List SolverMove × List FrontierData :=
  let cell := b.cells p
  let hidden := hiddenNeighbors b p.1 p.2
  let flagged := flaggedNeighborCount b p.1 p.2
  if hidden.isEmpty then st
  else
    let remaining : Int := (cell.neighbor_mines : Int) - (flagged : Int)
    let moves1 :=
      if remaining = (hidden.length : Int) ∧ 0 < remaining then
        pushMoves st.1 (hidden.map (fun q => (q.1, q.2, "FLAG")))
      else st.1
    let moves2 :=
      if flagged = cell.neighbor_mines then
        pushMoves moves1 (hidden.map (fun q => (q.1, q.2, "REVEAL")))
      else moves1
    (moves2, st.2 ++ [⟨p.1, p.2, remaining, hidden⟩])

/-- The trivial-rule phase of `solve_step` (everything before the call to
`_find_subset_deductions`): the accumulated moves and the frontier data. -/
def trivialPhase (b : Board) : List SolverMove × List FrontierData :=
  (getFrontierCells b).foldl (trivialStep b) ([], [])

/-- `set.issubset` on coordinate lists used as sets. -/
def subsetList (a b : List Coord) : Bool := a.all (fun x => decide (x ∈ b))

/-- Python set difference `hb - ha` on coordinate lists used as sets. -/
def listDiff (hb ha : List Coord) : List Coord :=
  hb.filter (fun x => decide (¬ x ∈ ha))

/-- The emission loop of `_find_subset_deductions` over the cells of `diff`
for one action, with the revealed/flagged re-check of the source. -/
def pushDiffMoves (b : Board) (diff : List Coord) (action : String)
    (moves : List SolverMove) : List SolverMove :=
  diff.foldl
    (fun ms q =>
      if (b.cells q).is_revealed || (b.cells q).is_flagged then ms
      else pushMove ms (q.1, q.2, action))
    moves

/-- The body of the inner pair loop of `_find_subset_deductions` for the
ordered pair `(A, B)` (`A` in the subset role). -/
def processPair (b : Board) (A B : FrontierData) (moves : List SolverMove) :
    List SolverMove :=
  if B.hidden_coords.isEmpty then moves
  else if ¬ subsetList A.hidden_coords B.hidden_coords then moves
  else
    let diff := listDiff B.hidden_coords A.hidden_coords
    if diff.isEmpty then moves
    else
      let extra := B.mines_needed - A.mines_needed
      if extra < 0 then moves
      else if extra = 0 then pushDiffMoves b diff "REVEAL" moves
      else if extra = (diff.length : Int) then pushDiffMoves b diff "FLAG" moves
      else moves

/-- The default value handed to list lookups (Python indexing `l[i]` is
always in range in the sources; the default is never read). -/
def noFrontierData : FrontierData := ⟨0, 0, 0, []⟩

/-- `MinemindSolver._find_subset_deductions`: all ordered pairs of distinct
indices of the frontier data (`for i in range(n)`, `for j in range(n)`,
skipping `i == j`). -/
def findSubsetDeductions (b : Board) (fdata : List FrontierData)
    (moves : List SolverMove) : List SolverMove :=
  if fdata.length < 2 then moves
  else
    (List.range fdata.length).foldl
      (fun ms i =>
        if (fdata.getD i noFrontierData).hidden_coords.isEmpty then ms
        else
          (List.range fdata.length).foldl
            (fun ms2 j =>
              if i = j then ms2
              else
                processPair b (fdata.getD i noFrontierData)
                  (fdata.getD j noFrontierData) ms2)
            ms)
      moves

/-- `MinemindSolver.solve_step`: the trivial phase followed unconditionally
by the subset-deduction phase. -/
def solve_step (b : Board) : List SolverMove :=
  let tp := trivialPhase b
  findSubsetDeductions b tp.2 tp.1

/-- `FrontierCellView` from `frontier.py`. -/
structure FrontierCellView where
  row : Int
  col : Int
  hidden_neighbors : List Coord
  flagged_neighbors : Nat
  remaining_mines : Int
deriving DecidableEq

/-- `iter_frontier_cells` from `frontier.py`, collected into a list: one
view per revealed numbered cell with at least one hidden neighbour, in
row-major order. -/
def iter_frontier_cells (b : Board) : List FrontierCellView :=
  (allCoords b.rows b.cols).filterMap (fun p =>
    let cell := b.cells p
    if cell.is_revealed = false ∨ cell.neighbor_mines = 0 then none
    else
      let hidden := hiddenNeighbors b p.1 p.2
      let flagged := flaggedNeighborCount b p.1 p.2
      if hidden.isEmpty then none
      else
        some ⟨p.1, p.2, hidden, flagged,
          (cell.neighbor_mines : Int) - (flagged : Int)⟩)

/-- `collect_frontier` from `frontier.py`. -/
def collect_frontier (b : Board) : List FrontierCellView :=
  iter_frontier_cells b

/-- `RuleContext` from `rules.py`. -/
structure RuleContext where
  board : Board
  frontier : List FrontierCellView

/-- `apply_trivial_rules` from `rules.py`. -/
def apply_trivial_rules (ctx : RuleContext) : List SolverMove :=
  ctx.frontier.foldl
    (fun moves fv =>
      if fv.hidden_neighbors.isEmpty then moves
      else
        let moves1 :=
          if fv.remaining_mines = (fv.hidden_neighbors.length : Int) ∧
              0 < fv.remaining_mines then
            pushMoves moves
              (fv.hidden_neighbors.map (fun q => (q.1, q.2, "FLAG")))
          else moves
        if fv.remaining_mines = 0 then
          pushMoves moves1
            (fv.hidden_neighbors.map (fun q => (q.1, q.2, "REVEAL")))
        else moves1)
    []

/-- Python set equality `smaller == larger` on coordinate lists as sets. -/
def setEqList (a b : List Coord) : Bool := subsetList a b && subsetList b a

/-- One direction `(smaller, larger)` of the two-direction loop inside
`apply_subset_rules`. -/
def directedSubsetMoves (smaller larger : List Coord) (mSmall mLarge : Int)
    (moves : List SolverMove) : List SolverMove :=
  if smaller.isEmpty || setEqList smaller larger then moves
  else if ¬ subsetList smaller larger then moves
  else
    let diff := listDiff larger smaller
    if diff.isEmpty then moves
    else
      let extra := mLarge - mSmall
      let moves1 :=
        if mSmall = mLarge then
          pushMoves moves (diff.map (fun q => (q.1, q.2, "REVEAL")))
        else moves
      if extra = (diff.length : Int) ∧ 0 < extra then
        pushMoves moves1 (diff.map (fun q => (q.1, q.2, "FLAG")))
      else moves1

/-- The default view handed to list lookups (never read: Python indexing is
always in range in the sources). -/
def noFrontierView : FrontierCellView := ⟨0, 0, [], 0, 0⟩

/-- `apply_subset_rules` from `rules.py`: unordered index pairs
(`for i in range(n)`, `for j in range(i + 1, n)`), each tried in both
subset directions. -/
def apply_subset_rules (ctx : RuleContext) : List SolverMove :=
  (List.range ctx.frontier.length).foldl
    (fun ms i =>
      let A := ctx.frontier.getD i noFrontierView
      if A.hidden_neighbors.isEmpty then ms
      else
        (List.range' (i + 1) (ctx.frontier.length - (i + 1))).foldl
          (fun ms2 j =>
            let B := ctx.frontier.getD j noFrontierView
            if B.hidden_neighbors.isEmpty then ms2
            else
              let ms3 := directedSubsetMoves A.hidden_neighbors
                B.hidden_neighbors A.remaining_mines B.remaining_mines ms2
              directedSubsetMoves B.hidden_neighbors A.hidden_neighbors
                B.remaining_mines A.remaining_mines ms3)
          ms)
    []

/-- A 2x7 position: the frontier cells (0,0) and (0,1) admit only a subset
deduction (reveal (1,2)); the flag at (1,6) makes (0,5) and (0,6) fire the
trivial reveal rule. -/
def earlyExitBoard : Board :=
  { rows := 2, cols := 7, mines := 0, state := "PLAYING", mines_placed := true,
    cells := fun p =>
      if p = (0, 0) then ⟨false, 1, true, false⟩
      else if p = (0, 1) then ⟨false, 1, true, false⟩
      else if p = (0, 2) then ⟨false, 0, true, false⟩
      else if p = (0, 3) then ⟨false, 0, true, false⟩
      else if p = (0, 4) then ⟨false, 0, true, false⟩
      else if p = (0, 5) then ⟨false, 1, true, false⟩
      else if p = (0, 6) then ⟨false, 1, true, false⟩
      else if p = (1, 6) then ⟨false, 0, false, true⟩
      else ⟨false, 0, false, false⟩ }

/-- One externally-invokable mutating call on the board.  A reveal carries
the sampling outcome `random.sample` would produce if this reveal places
the mines (it is ignored otherwise). -/
inductive Act where
  | rev (r c : Int) (sample : List Coord)
  | flg (r c : Int)

/-- Apply one call to the board. -/
def applyAct (b : Board) : Act → Board
  | .rev r c sample => b.reveal r c sample
  | .flg r c => b.flag r c

/-- Apply a sequence of calls, left to right. -/
def applyActs (b : Board) (acts : List Act) : Board :=
  acts.foldl applyAct b

/-- The 3x3 subset scenario of the test-suite: numbered cells (0,1) and
(1,1), hidden cells (1,0) and (2,1), so the views' hidden sets are
`{(1,0)}` strictly inside `{(1,0),(2,1)}` with equal remaining counts. -/
def subsetBoard : Board :=
  { rows := 3, cols := 3, mines := 0, state := "PLAYING", mines_placed := true,
    cells := fun p =>
      if p = (1, 0) then ⟨false, 0, false, false⟩
      else if p = (2, 1) then ⟨false, 0, false, false⟩
      else if p = (0, 1) then ⟨false, 1, true, false⟩
      else if p = (1, 1) then ⟨false, 1, true, false⟩
      else ⟨false, 0, true, false⟩ }

/-! ## Generic accumulation lemmas -/

theorem pushMove_extends (acc : List SolverMove) (m : SolverMove) :
    ∃ t, pushMove acc m = acc ++ t := by
  unfold pushMove
  split
  · exact ⟨[], by simp⟩
  · exact ⟨[m], rfl⟩

theorem foldl_extends {α : Type} (f : List SolverMove → α → List SolverMove)
    (hf : ∀ acc a, ∃ t, f acc a = acc ++ t) (l : List α) (acc : List SolverMove) :
    ∃ t, l.foldl f acc = acc ++ t := by
  induction l generalizing acc with
  | nil => exact ⟨[], by simp⟩
  | cons x xs ih =>
    obtain ⟨t1, h1⟩ := hf acc x
    obtain ⟨t2, h2⟩ := ih (f acc x)
    exact ⟨t1 ++ t2, by rw [List.foldl_cons, h2, h1, List.append_assoc]⟩

theorem pushMoves_extends (acc : List SolverMove) (ms : List SolverMove) :
    ∃ t, pushMoves acc ms = acc ++ t :=
  foldl_extends pushMove pushMove_extends ms acc

theorem pushDiffMoves_extends (b : Board) (diff : List Coord) (action : String)
    (moves : List SolverMove) :
    ∃ t, pushDiffMoves b diff action moves = moves ++ t := by
  apply foldl_extends
  intro acc q
  dsimp only
  split
  · exact ⟨[], by simp⟩
  · exact pushMove_extends acc (q.1, q.2, action)

theorem processPair_extends (b : Board) (A B : FrontierData)
    (moves : List SolverMove) : ∃ t, processPair b A B moves = moves ++ t := by
  unfold processPair
  split
  · exact ⟨[], by simp⟩
  split
  · exact ⟨[], by simp⟩
  dsimp only
  split
  · exact ⟨[], by simp⟩
  split
  · exact ⟨[], by simp⟩
  split
  · exact pushDiffMoves_extends ..
  split
  · exact pushDiffMoves_extends ..
  · exact ⟨[], by simp⟩

theorem findSubsetDeductions_extends (b : Board) (fdata : List FrontierData)
    (moves : List SolverMove) :
    ∃ t, findSubsetDeductions b fdata moves = moves ++ t := by
  unfold findSubsetDeductions
  split
  · exact ⟨[], by simp⟩
  · apply foldl_extends
    intro acc iA
    dsimp only
    split
    · exact ⟨[], by simp⟩
    · apply foldl_extends
      intro acc2 jB
      dsimp only
      split
      · exact ⟨[], by simp⟩
      · exact processPair_extends ..

/-! ## Membership characterizations of the move accumulators -/

theorem mem_pushMove (acc : List SolverMove) (m' m : SolverMove) :
    m ∈ pushMove acc m' ↔ m ∈ acc ∨ m = m' := by
  unfold pushMove
  split
  · rename_i h
    constructor
    · exact Or.inl
    · rintro (h1 | rfl)
      · exact h1
      · exact h
  · simp [List.mem_append]

theorem mem_pushMoves (acc l : List SolverMove) (m : SolverMove) :
    m ∈ pushMoves acc l ↔ m ∈ acc ∨ m ∈ l := by
  unfold pushMoves
  induction l generalizing acc with
  | nil => simp
  | cons x xs ih =>
    rw [List.foldl_cons, ih, mem_pushMove, List.mem_cons]
    tauto

theorem foldl_mem {α : Type} (f : List SolverMove → α → List SolverMove)
    (E : α → SolverMove → Prop)
    (hE : ∀ acc a m, m ∈ f acc a ↔ m ∈ acc ∨ E a m) (l : List α)
    (acc : List SolverMove) (m : SolverMove) :
    m ∈ l.foldl f acc ↔ m ∈ acc ∨ ∃ a ∈ l, E a m := by
  induction l generalizing acc with
  | nil => simp
  | cons x xs ih =>
    rw [List.foldl_cons, ih, hE]
    constructor
    · rintro ((h | h) | ⟨a, ha, h⟩)
      · exact Or.inl h
      · exact Or.inr ⟨x, List.mem_cons_self .., h⟩
      · exact Or.inr ⟨a, List.mem_cons_of_mem _ ha, h⟩
    · rintro (h | ⟨a, ha, h⟩)
      · exact Or.inl (Or.inl h)
      · rcases List.mem_cons.mp ha with rfl | ha'
        · exact Or.inl (Or.inr h)
        · exact Or.inr ⟨a, ha', h⟩

/-- A cell of `diff` that `_find_subset_deductions` actually emits with the
given action: it passes the revealed/flagged re-check. -/
def diffEmit (b : Board) (diff : List Coord) (action : String)
    (m : SolverMove) : Prop :=
  ∃ q ∈ diff, (b.cells q).is_revealed = false ∧
    (b.cells q).is_flagged = false ∧ m = (q.1, q.2, action)

theorem mem_pushDiffMoves (b : Board) (diff : List Coord) (action : String)
    (ms : List SolverMove) (m : SolverMove) :
    m ∈ pushDiffMoves b diff action ms ↔ m ∈ ms ∨ diffEmit b diff action m := by
  unfold pushDiffMoves diffEmit
  apply foldl_mem
  intro acc q mm
  dsimp only
  split
  · rename_i h
    constructor
    · exact Or.inl
    · rintro (h1 | ⟨h1, h2, _⟩)
      · exact h1
      · rw [h1, h2] at h
        simp at h
  · rename_i h
    rw [Bool.or_eq_true, not_or, Bool.not_eq_true, Bool.not_eq_true] at h
    rw [mem_pushMove]
    constructor
    · rintro (h1 | rfl)
      · exact Or.inl h1
      · exact Or.inr ⟨h.1, h.2, rfl⟩
    · rintro (h1 | ⟨_, _, rfl⟩)
      · exact Or.inl h1
      · exact Or.inr rfl

/-- What one ordered pair `(A, B)` of `_find_subset_deductions` contributes:
`B`'s hidden set is non-empty, `A`'s is a subset of it with non-empty
difference, the extra-mine count is non-negative, and the move is one of
the reveal (`extra == 0`) or flag (`extra == |diff|`, the `elif` forcing
`extra != 0`) emissions over the difference. -/
def pairEmits (b : Board) (A B : FrontierData) (m : SolverMove) : Prop :=
  B.hidden_coords ≠ [] ∧
  subsetList A.hidden_coords B.hidden_coords = true ∧
  listDiff B.hidden_coords A.hidden_coords ≠ [] ∧
  0 ≤ B.mines_needed - A.mines_needed ∧
  ((B.mines_needed - A.mines_needed = 0 ∧
      diffEmit b (listDiff B.hidden_coords A.hidden_coords) "REVEAL" m) ∨
    (B.mines_needed - A.mines_needed ≠ 0 ∧
      B.mines_needed - A.mines_needed =
        ((listDiff B.hidden_coords A.hidden_coords).length : Int) ∧
      diffEmit b (listDiff B.hidden_coords A.hidden_coords) "FLAG" m))

theorem mem_processPair (b : Board) (A B : FrontierData)
    (ms : List SolverMove) (m : SolverMove) :
    m ∈ processPair b A B ms ↔ m ∈ ms ∨ pairEmits b A B m := by
  unfold processPair pairEmits
  split
  · rename_i h
    rw [List.isEmpty_iff] at h
    simp [h]
  rename_i hB
  rw [List.isEmpty_iff] at hB
  split
  · rename_i h
    constructor
    · exact Or.inl
    · rintro (h1 | ⟨_, h2, _⟩)
      · exact h1
      · exact absurd h2 h
  rename_i hsub
  rw [not_not] at hsub
  dsimp only
  split
  · rename_i h
    rw [List.isEmpty_iff] at h
    simp [h, hB, hsub]
  rename_i hdiff
  rw [List.isEmpty_iff] at hdiff
  split
  · rename_i h
    constructor
    · exact Or.inl
    · rintro (h1 | ⟨_, _, _, h4, _⟩)
      · exact h1
      · omega
  rename_i hpos
  rw [not_lt] at hpos
  split
  · rename_i h0
    rw [mem_pushDiffMoves]
    constructor
    · rintro (h1 | h1)
      · exact Or.inl h1
      · exact Or.inr ⟨hB, hsub, hdiff, hpos, Or.inl ⟨h0, h1⟩⟩
    · rintro (h1 | ⟨_, _, _, _, ⟨_, h5⟩ | ⟨h4, _, _⟩⟩)
      · exact Or.inl h1
      · exact Or.inr h5
      · exact absurd h0 h4
  rename_i hne0
  split
  · rename_i hlen
    rw [mem_pushDiffMoves]
    constructor
    · rintro (h1 | h1)
      · exact Or.inl h1
      · exact Or.inr ⟨hB, hsub, hdiff, hpos, Or.inr ⟨hne0, hlen, h1⟩⟩
    · rintro (h1 | ⟨_, _, _, _, ⟨h4, _⟩ | ⟨_, _, h6⟩⟩)
      · exact Or.inl h1
      · exact absurd h4 hne0
      · exact Or.inr h6
  · rename_i hlen
    constructor
    · exact Or.inl
    · rintro (h1 | ⟨_, _, _, _, ⟨h4, _⟩ | ⟨_, h5, _⟩⟩)
      · exact h1
      · exact absurd h4 hne0
      · exact absurd h5 hlen

/-- What the whole subset phase contributes: some ordered pair of distinct
indices whose `A` component has a non-empty hidden set (the outer `continue`
guard) emits the move. -/
def subsetEmits (b : Board) (fdata : List FrontierData) (m : SolverMove) :
    Prop :=
  ∃ i j, i < fdata.length ∧ j < fdata.length ∧ i ≠ j ∧
    (fdata.getD i noFrontierData).hidden_coords ≠ [] ∧
    pairEmits b (fdata.getD i noFrontierData) (fdata.getD j noFrontierData) m

theorem mem_findSubsetDeductions (b : Board) (fdata : List FrontierData)
    (ms : List SolverMove) (m : SolverMove) :
    m ∈ findSubsetDeductions b fdata ms ↔ m ∈ ms ∨ subsetEmits b fdata m := by
  unfold findSubsetDeductions
  split
  · rename_i hlen
    constructor
    · exact Or.inl
    · rintro (h | ⟨i, j, hi, hj, hij, _, _⟩)
      · exact h
      · omega
  · rename_i hlen
    refine Iff.trans (foldl_mem _ (fun i mm =>
        (fdata.getD i noFrontierData).hidden_coords ≠ [] ∧
        ∃ j, j < fdata.length ∧ i ≠ j ∧
          pairEmits b (fdata.getD i noFrontierData)
            (fdata.getD j noFrontierData) mm) ?_ _ _ _) ?_
    · intro acc i mm
      dsimp only
      split
      · rename_i hA
        rw [List.isEmpty_iff] at hA
        constructor
        · exact Or.inl
        · rintro (h | ⟨hne, _⟩)
          · exact h
          · exact absurd hA hne
      · rename_i hA
        rw [List.isEmpty_iff] at hA
        refine Iff.trans (foldl_mem _ (fun j mm2 =>
            i ≠ j ∧ pairEmits b (fdata.getD i noFrontierData)
              (fdata.getD j noFrontierData) mm2) ?_ _ _ _) ?_
        · intro acc2 j mm2
          dsimp only
          split
          · rename_i hij
            constructor
            · exact Or.inl
            · rintro (h | ⟨hne, _⟩)
              · exact h
              · exact absurd hij hne
          · rename_i hij
            rw [mem_processPair]
            constructor
            · rintro (h | h)
              · exact Or.inl h
              · exact Or.inr ⟨hij, h⟩
            · rintro (h | ⟨_, h⟩)
              · exact Or.inl h
              · exact Or.inr h
        · constructor
          · rintro (h | ⟨j, hj, h⟩)
            · exact Or.inl h
            · rw [List.mem_range] at hj
              exact Or.inr ⟨hA, j, hj, h⟩
          · rintro (h | ⟨_, j, hj, h⟩)
            · exact Or.inl h
            · exact Or.inr ⟨j, List.mem_range.mpr hj, h⟩
    · constructor
      · rintro (h | ⟨i, hi, hne, j, hj, hij, h⟩)
        · exact Or.inl h
        · rw [List.mem_range] at hi
          exact Or.inr ⟨i, j, hi, hj, hij, hne, h⟩
      · rintro (h | ⟨i, j, hi, hj, hij, hne, h⟩)
        · exact Or.inl h
        · exact Or.inr ⟨i, List.mem_range.mpr hi, hne, j, hj, hij, h⟩

/-! ## Correspondence of the frontier representations -/

/-- The view `iter_frontier_cells` yields at a qualifying coordinate. -/
def viewAt (b : Board) (p : Coord) : FrontierCellView :=
  ⟨p.1, p.2, hiddenNeighbors b p.1 p.2, flaggedNeighborCount b p.1 p.2,
    ((b.cells p).neighbor_mines : Int) - (flaggedNeighborCount b p.1 p.2 : Int)⟩

/-- The dict entry `solve_step` collects at a frontier coordinate. -/
def dataAt (b : Board) (p : Coord) : FrontierData :=
  ⟨p.1, p.2,
    ((b.cells p).neighbor_mines : Int) - (flaggedNeighborCount b p.1 p.2 : Int),
    hiddenNeighbors b p.1 p.2⟩

/-- Forgetting the flagged count turns a frontier view into the solver's
frontier-data record. -/
def viewToData (fv : FrontierCellView) : FrontierData :=
  ⟨fv.row, fv.col, fv.remaining_mines, fv.hidden_neighbors⟩

theorem anyHidden_iff (b : Board) (r c : Int) :
    ((b.getNeighbors r c).any
        (fun q => !(b.cells q).is_revealed && !(b.cells q).is_flagged) = true) ↔
      hiddenNeighbors b r c ≠ [] := by
  rw [List.any_eq_true]
  unfold hiddenNeighbors
  constructor
  · rintro ⟨q, hq, hpred⟩
    intro hnil
    rw [List.eq_nil_iff_forall_not_mem] at hnil
    refine hnil q (List.mem_filter.mpr ⟨hq, ?_⟩)
    rw [Bool.and_eq_true] at hpred ⊢
    exact ⟨hpred.2, hpred.1⟩
  · intro hne
    obtain ⟨q, hq⟩ := List.exists_mem_of_ne_nil _ hne
    have := List.mem_filter.mp hq
    rw [Bool.and_eq_true] at this
    exact ⟨q, this.1, by rw [Bool.and_eq_true]; exact ⟨this.2.2, this.2.1⟩⟩

theorem mem_getFrontierCells (b : Board) (p : Coord) :
    p ∈ getFrontierCells b ↔
      p ∈ allCoords b.rows b.cols ∧ (b.cells p).is_revealed = true ∧
        (b.cells p).neighbor_mines ≠ 0 ∧ hiddenNeighbors b p.1 p.2 ≠ [] := by
  unfold getFrontierCells
  rw [List.mem_filter, Bool.and_eq_true, Bool.and_eq_true]
  constructor
  · rintro ⟨hmem, ⟨hrev, hcount⟩, hany⟩
    rw [decide_eq_true_eq] at hcount
    exact ⟨hmem, hrev, by omega, (anyHidden_iff b p.1 p.2).mp hany⟩
  · rintro ⟨hmem, hrev, hcount, hhid⟩
    exact ⟨hmem, ⟨hrev, by rw [decide_eq_true_eq]; omega⟩,
      (anyHidden_iff b p.1 p.2).mpr hhid⟩

theorem iter_frontier_cells_eq (b : Board) :
    iter_frontier_cells b =
      (allCoords b.rows b.cols).filterMap (fun p =>
        if (b.cells p).is_revealed = true ∧ (b.cells p).neighbor_mines ≠ 0 ∧
            hiddenNeighbors b p.1 p.2 ≠ [] then
          some (viewAt b p)
        else none) := by
  unfold iter_frontier_cells
  apply List.filterMap_congr
  intro p _
  dsimp only
  by_cases h1 : (b.cells p).is_revealed = false ∨ (b.cells p).neighbor_mines = 0
  · rw [if_pos h1, if_neg]
    rintro ⟨ha, hb, -⟩
    rcases h1 with h | h
    · rw [ha] at h
      cases h
    · exact hb h
  · rw [if_neg h1]
    push_neg at h1
    obtain ⟨ha, hb⟩ := h1
    have ha' : (b.cells p).is_revealed = true := by
      cases hx : (b.cells p).is_revealed
      · exact absurd hx ha
      · rfl
    clear ha
    rename' ha' => ha
    by_cases h2 : (hiddenNeighbors b p.1 p.2).isEmpty = true
    · rw [if_pos h2, if_neg]
      rw [List.isEmpty_iff] at h2
      rintro ⟨-, -, hc⟩
      exact hc h2
    · rw [List.isEmpty_iff] at h2
      rw [if_neg (by rw [List.isEmpty_iff]; exact h2), if_pos ⟨ha, hb, h2⟩]
      rfl

theorem mem_iter_frontier_cells (b : Board) (fv : FrontierCellView) :
    fv ∈ iter_frontier_cells b ↔
      ∃ p ∈ allCoords b.rows b.cols, (b.cells p).is_revealed = true ∧
        (b.cells p).neighbor_mines ≠ 0 ∧ hiddenNeighbors b p.1 p.2 ≠ [] ∧
        fv = viewAt b p := by
  rw [iter_frontier_cells_eq, List.mem_filterMap]
  constructor
  · rintro ⟨p, hp, h⟩
    split at h
    · rename_i hc
      exact ⟨p, hp, hc.1, hc.2.1, hc.2.2, (Option.some.injEq .. ▸ h).symm⟩
    · cases h
  · rintro ⟨p, hp, h1, h2, h3, rfl⟩
    exact ⟨p, hp, by rw [if_pos ⟨h1, h2, h3⟩]⟩

theorem trivialStep_snd (b : Board) (st : List SolverMove × List FrontierData)
    (p : Coord) :
    (trivialStep b st p).2 =
      st.2 ++ (if (hiddenNeighbors b p.1 p.2).isEmpty then []
        else [dataAt b p]) := by
  unfold trivialStep
  dsimp only
  split
  · simp
  · rfl

theorem trivialPhase_fold_snd (b : Board) (l : List Coord)
    (st : List SolverMove × List FrontierData) :
    (l.foldl (trivialStep b) st).2 =
      st.2 ++ l.filterMap (fun p =>
        if (hiddenNeighbors b p.1 p.2).isEmpty then none
        else some (dataAt b p)) := by
  induction l generalizing st with
  | nil => simp
  | cons p rest ih =>
    rw [List.foldl_cons, ih, trivialStep_snd]
    by_cases h : (hiddenNeighbors b p.1 p.2).isEmpty = true
    · rw [if_pos h, List.filterMap_cons_none (by rw [if_pos h])]
      simp
    · rw [if_neg h, List.filterMap_cons_some (by rw [if_neg h])]
      simp

theorem trivialPhase_snd_eq (b : Board) :
    (trivialPhase b).2 = (iter_frontier_cells b).map viewToData := by
  unfold trivialPhase
  rw [trivialPhase_fold_snd, List.nil_append, iter_frontier_cells_eq,
    List.map_filterMap]
  unfold getFrontierCells
  rw [List.filterMap_filter]
  apply List.filterMap_congr
  intro p _
  dsimp only
  by_cases hfront : ((b.cells p).is_revealed &&
      decide (0 < (b.cells p).neighbor_mines) &&
      (b.getNeighbors p.1 p.2).any
        (fun q => !(b.cells q).is_revealed && !(b.cells q).is_flagged)) = true
  · rw [if_pos hfront]
    rw [Bool.and_eq_true, Bool.and_eq_true, decide_eq_true_eq] at hfront
    obtain ⟨⟨hrev, hcount⟩, hany⟩ := hfront
    have hhid := (anyHidden_iff b p.1 p.2).mp hany
    rw [if_neg (by rw [List.isEmpty_iff]; exact hhid),
      if_pos ⟨hrev, by omega, hhid⟩]
    rfl
  · rw [if_neg hfront]
    rw [Bool.and_eq_true, Bool.and_eq_true, decide_eq_true_eq] at hfront
    push_neg at hfront
    by_cases hhid : hiddenNeighbors b p.1 p.2 = []
    · rw [if_neg (fun hc => hc.2.2 hhid)]
      rfl
    · have hany := (anyHidden_iff b p.1 p.2).mpr hhid
      rw [if_neg (fun hc => (hfront ⟨hc.1, by omega⟩) hany)]
      rfl

/-- What the trivial flag/reveal rules of `solve_step` emit at a frontier
coordinate `p`: the hidden set is non-empty and the move names one of its
cells, flagged when `remaining == |hidden| > 0`, revealed when
`flagged == neighbor_mines`. -/
def trivEmitAt (b : Board) (p : Coord) (m : SolverMove) : Prop :=
  hiddenNeighbors b p.1 p.2 ≠ [] ∧
  ((((b.cells p).neighbor_mines : Int) - (flaggedNeighborCount b p.1 p.2 : Int) =
        ((hiddenNeighbors b p.1 p.2).length : Int) ∧
      0 < ((b.cells p).neighbor_mines : Int) -
        (flaggedNeighborCount b p.1 p.2 : Int) ∧
      ∃ q ∈ hiddenNeighbors b p.1 p.2, m = (q.1, q.2, "FLAG")) ∨
    (flaggedNeighborCount b p.1 p.2 = (b.cells p).neighbor_mines ∧
      ∃ q ∈ hiddenNeighbors b p.1 p.2, m = (q.1, q.2, "REVEAL")))

theorem mem_map_move (l : List Coord) (a : String) (m : SolverMove) :
    (m ∈ l.map (fun q => (q.1, q.2, a))) ↔ ∃ q ∈ l, m = (q.1, q.2, a) := by
  rw [List.mem_map]
  constructor
  · rintro ⟨q, hq, rfl⟩
    exact ⟨q, hq, rfl⟩
  · rintro ⟨q, hq, rfl⟩
    exact ⟨q, hq, rfl⟩

theorem mem_trivialStep_fst (b : Board)
    (st : List SolverMove × List FrontierData) (p : Coord) (m : SolverMove) :
    m ∈ (trivialStep b st p).1 ↔ m ∈ st.1 ∨ trivEmitAt b p m := by
  unfold trivialStep trivEmitAt
  dsimp only
  split
  · rename_i h
    rw [List.isEmpty_iff] at h
    constructor
    · exact Or.inl
    · rintro (h1 | ⟨hne, -⟩)
      · exact h1
      · exact absurd h hne
  · rename_i h
    rw [List.isEmpty_iff] at h
    split
    · rename_i hrev
      split
      · rename_i hflag
        rw [mem_pushMoves, mem_pushMoves, mem_map_move, mem_map_move]
        constructor
        · rintro ((h1 | h1) | h1)
          · exact Or.inl h1
          · exact Or.inr ⟨h, Or.inl ⟨hflag.1, hflag.2, h1⟩⟩
          · exact Or.inr ⟨h, Or.inr ⟨hrev, h1⟩⟩
        · rintro (h1 | ⟨-, ⟨-, -, h1⟩ | ⟨-, h1⟩⟩)
          · exact Or.inl (Or.inl h1)
          · exact Or.inl (Or.inr h1)
          · exact Or.inr h1
      · rename_i hflag
        rw [mem_pushMoves, mem_map_move]
        constructor
        · rintro (h1 | h1)
          · exact Or.inl h1
          · exact Or.inr ⟨h, Or.inr ⟨hrev, h1⟩⟩
        · rintro (h1 | ⟨-, ⟨hc1, hc2, -⟩ | ⟨-, h1⟩⟩)
          · exact Or.inl h1
          · exact absurd ⟨hc1, hc2⟩ hflag
          · exact Or.inr h1
    · rename_i hrev
      split
      · rename_i hflag
        rw [mem_pushMoves, mem_map_move]
        constructor
        · rintro (h1 | h1)
          · exact Or.inl h1
          · exact Or.inr ⟨h, Or.inl ⟨hflag.1, hflag.2, h1⟩⟩
        · rintro (h1 | ⟨-, ⟨-, -, h1⟩ | ⟨hc, -⟩⟩)
          · exact Or.inl h1
          · exact Or.inr h1
          · exact absurd hc hrev
      · rename_i hflag
        constructor
        · exact Or.inl
        · rintro (h1 | ⟨-, ⟨hc1, hc2, -⟩ | ⟨hc, -⟩⟩)
          · exact h1
          · exact absurd ⟨hc1, hc2⟩ hflag
          · exact absurd hc hrev

theorem trivialPhase_fold_fst (b : Board) (l : List Coord)
    (st : List SolverMove × List FrontierData) (m : SolverMove) :
    m ∈ (l.foldl (trivialStep b) st).1 ↔
      m ∈ st.1 ∨ ∃ p ∈ l, trivEmitAt b p m := by
  induction l generalizing st with
  | nil => simp
  | cons p rest ih =>
    rw [List.foldl_cons, ih, mem_trivialStep_fst]
    constructor
    · rintro ((h | h) | ⟨q, hq, h⟩)
      · exact Or.inl h
      · exact Or.inr ⟨p, List.mem_cons_self .., h⟩
      · exact Or.inr ⟨q, List.mem_cons_of_mem _ hq, h⟩
    · rintro (h | ⟨q, hq, h⟩)
      · exact Or.inl (Or.inl h)
      · rcases List.mem_cons.mp hq with rfl | hq'
        · exact Or.inl (Or.inr h)
        · exact Or.inr ⟨q, hq', h⟩

theorem mem_trivialPhase (b : Board) (m : SolverMove) :
    m ∈ (trivialPhase b).1 ↔ ∃ p ∈ getFrontierCells b, trivEmitAt b p m := by
  unfold trivialPhase
  rw [trivialPhase_fold_fst]
  simp

/-- The trivial emissions phrased over a frontier view, the common currency
of `solve_step` and `apply_trivial_rules`. -/
def viewTrivEmit (fv : FrontierCellView) (m : SolverMove) : Prop :=
  fv.hidden_neighbors ≠ [] ∧
  ((fv.remaining_mines = (fv.hidden_neighbors.length : Int) ∧
      0 < fv.remaining_mines ∧
      ∃ q ∈ fv.hidden_neighbors, m = (q.1, q.2, "FLAG")) ∨
    (fv.remaining_mines = 0 ∧
      ∃ q ∈ fv.hidden_neighbors, m = (q.1, q.2, "REVEAL")))

theorem trivEmitAt_iff_view (b : Board) (p : Coord) (m : SolverMove) :
    trivEmitAt b p m ↔ viewTrivEmit (viewAt b p) m := by
  unfold trivEmitAt viewTrivEmit viewAt
  dsimp only
  constructor
  · rintro ⟨h1, ⟨h2, h3, h4⟩ | ⟨h2, h3⟩⟩
    · exact ⟨h1, Or.inl ⟨h2, h3, h4⟩⟩
    · exact ⟨h1, Or.inr ⟨by omega, h3⟩⟩
  · rintro ⟨h1, ⟨h2, h3, h4⟩ | ⟨h2, h3⟩⟩
    · exact ⟨h1, Or.inl ⟨h2, h3, h4⟩⟩
    · exact ⟨h1, Or.inr ⟨by omega, h3⟩⟩

theorem frontier_view_exchange (b : Board) (E : FrontierCellView → Prop) :
    (∃ p ∈ getFrontierCells b, E (viewAt b p)) ↔
      ∃ fv ∈ iter_frontier_cells b, E fv := by
  constructor
  · rintro ⟨p, hp, hE⟩
    obtain ⟨hmem, hrev, hcount, hhid⟩ := (mem_getFrontierCells b p).mp hp
    exact ⟨viewAt b p,
      (mem_iter_frontier_cells b _).mpr ⟨p, hmem, hrev, hcount, hhid, rfl⟩, hE⟩
  · rintro ⟨fv, hfv, hE⟩
    obtain ⟨p, hmem, hrev, hcount, hhid, rfl⟩ :=
      (mem_iter_frontier_cells b fv).mp hfv
    exact ⟨p, (mem_getFrontierCells b p).mpr ⟨hmem, hrev, hcount, hhid⟩, hE⟩

/-- Full membership characterization of `solve_step`: a move is returned
iff some frontier view emits it trivially or some ordered pair of distinct
frontier entries emits it by the subset rule. -/
theorem mem_solve_step (b : Board) (m : SolverMove) :
    m ∈ solve_step b ↔
      (∃ fv ∈ iter_frontier_cells b, viewTrivEmit fv m) ∨
      subsetEmits b ((iter_frontier_cells b).map viewToData) m := by
  unfold solve_step
  rw [mem_findSubsetDeductions, trivialPhase_snd_eq, mem_trivialPhase]
  constructor
  · rintro (h | h)
    · obtain ⟨p, hp, hE⟩ := h
      exact Or.inl ((frontier_view_exchange b _).mp
        ⟨p, hp, (trivEmitAt_iff_view b p m).mp hE⟩)
    · exact Or.inr h
  · rintro (h | h)
    · obtain ⟨p, hp, hE⟩ := (frontier_view_exchange b _).mpr h
      exact Or.inl ⟨p, hp, (trivEmitAt_iff_view b p m).mpr hE⟩
    · exact Or.inr h

/-! ## Characterization of the rules.py implementations -/

theorem mem_apply_trivial_rules (ctx : RuleContext) (m : SolverMove) :
    m ∈ apply_trivial_rules ctx ↔ ∃ fv ∈ ctx.frontier, viewTrivEmit fv m := by
  unfold apply_trivial_rules
  refine Iff.trans (foldl_mem _ viewTrivEmit ?_ _ _ _) (by simp)
  intro acc fv mm
  unfold viewTrivEmit
  dsimp only
  split
  · rename_i h
    rw [List.isEmpty_iff] at h
    constructor
    · exact Or.inl
    · rintro (h1 | ⟨hne, -⟩)
      · exact h1
      · exact absurd h hne
  · rename_i h
    rw [List.isEmpty_iff] at h
    split
    · rename_i hrev
      split
      · rename_i hflag
        rw [mem_pushMoves, mem_pushMoves, mem_map_move, mem_map_move]
        constructor
        · rintro ((h1 | h1) | h1)
          · exact Or.inl h1
          · exact Or.inr ⟨h, Or.inl ⟨hflag.1, hflag.2, h1⟩⟩
          · exact Or.inr ⟨h, Or.inr ⟨hrev, h1⟩⟩
        · rintro (h1 | ⟨-, ⟨-, -, h1⟩ | ⟨-, h1⟩⟩)
          · exact Or.inl (Or.inl h1)
          · exact Or.inl (Or.inr h1)
          · exact Or.inr h1
      · rename_i hflag
        rw [mem_pushMoves, mem_map_move]
        constructor
        · rintro (h1 | h1)
          · exact Or.inl h1
          · exact Or.inr ⟨h, Or.inr ⟨hrev, h1⟩⟩
        · rintro (h1 | ⟨-, ⟨hc1, hc2, -⟩ | ⟨-, h1⟩⟩)
          · exact Or.inl h1
          · exact absurd ⟨hc1, hc2⟩ hflag
          · exact Or.inr h1
    · rename_i hrev
      split
      · rename_i hflag
        rw [mem_pushMoves, mem_map_move]
        constructor
        · rintro (h1 | h1)
          · exact Or.inl h1
          · exact Or.inr ⟨h, Or.inl ⟨hflag.1, hflag.2, h1⟩⟩
        · rintro (h1 | ⟨-, ⟨-, -, h1⟩ | ⟨hc, -⟩⟩)
          · exact Or.inl h1
          · exact Or.inr h1
          · exact absurd hc hrev
      · rename_i hflag
        constructor
        · exact Or.inl
        · rintro (h1 | ⟨-, ⟨hc1, hc2, -⟩ | ⟨hc, -⟩⟩)
          · exact h1
          · exact absurd ⟨hc1, hc2⟩ hflag
          · exact absurd hc hrev

/-- What one direction `(smaller, larger)` of `apply_subset_rules`
emits. -/
def dirEmits (smaller larger : List Coord) (mS mL : Int) (m : SolverMove) :
    Prop :=
  smaller ≠ [] ∧ setEqList smaller larger = false ∧
  subsetList smaller larger = true ∧
  listDiff larger smaller ≠ [] ∧
  ((mS = mL ∧ ∃ q ∈ listDiff larger smaller, m = (q.1, q.2, "REVEAL")) ∨
    (mL - mS = ((listDiff larger smaller).length : Int) ∧ 0 < mL - mS ∧
      ∃ q ∈ listDiff larger smaller, m = (q.1, q.2, "FLAG")))

theorem mem_directedSubsetMoves (smaller larger : List Coord) (mS mL : Int)
    (ms : List SolverMove) (m : SolverMove) :
    m ∈ directedSubsetMoves smaller larger mS mL ms ↔
      m ∈ ms ∨ dirEmits smaller larger mS mL m := by
  unfold directedSubsetMoves dirEmits
  split
  · rename_i h
    rw [Bool.or_eq_true] at h
    constructor
    · exact Or.inl
    · rintro (h1 | ⟨hne, heq, -⟩)
      · exact h1
      · rcases h with h | h
        · exact (hne (List.isEmpty_iff.mp h)).elim
        · rw [h] at heq
          cases heq
  rename_i hguard
  rw [Bool.or_eq_true, not_or] at hguard
  obtain ⟨hne', heq'⟩ := hguard
  have hne : smaller ≠ [] := fun hc => hne' (List.isEmpty_iff.mpr hc)
  have heqf : setEqList smaller larger = false := by
    cases hx : setEqList smaller larger
    · rfl
    · exact absurd hx heq'
  split
  · rename_i hsub
    constructor
    · exact Or.inl
    · rintro (h1 | ⟨-, -, hs, -⟩)
      · exact h1
      · exact (hsub hs).elim
  rename_i hsub
  rw [not_not] at hsub
  dsimp only
  split
  · rename_i hdiff
    rw [List.isEmpty_iff] at hdiff
    constructor
    · exact Or.inl
    · rintro (h1 | ⟨-, -, -, hd, -⟩)
      · exact h1
      · exact (hd hdiff).elim
  rename_i hdiff
  rw [List.isEmpty_iff] at hdiff
  split
  · rename_i hcase2
    split
    · rename_i hcase1
      rw [mem_pushMoves, mem_pushMoves, mem_map_move, mem_map_move]
      constructor
      · rintro ((h1 | h1) | h1)
        · exact Or.inl h1
        · exact Or.inr ⟨hne, heqf, hsub, hdiff, Or.inl ⟨hcase1, h1⟩⟩
        · exact Or.inr ⟨hne, heqf, hsub, hdiff,
            Or.inr ⟨hcase2.1, hcase2.2, h1⟩⟩
      · rintro (h1 | ⟨-, -, -, -, ⟨-, h1⟩ | ⟨-, -, h1⟩⟩)
        · exact Or.inl (Or.inl h1)
        · exact Or.inl (Or.inr h1)
        · exact Or.inr h1
    · rename_i hcase1
      rw [mem_pushMoves, mem_map_move]
      constructor
      · rintro (h1 | h1)
        · exact Or.inl h1
        · exact Or.inr ⟨hne, heqf, hsub, hdiff,
            Or.inr ⟨hcase2.1, hcase2.2, h1⟩⟩
      · rintro (h1 | ⟨-, -, -, -, ⟨hc, -⟩ | ⟨-, -, h1⟩⟩)
        · exact Or.inl h1
        · exact absurd hc hcase1
        · exact Or.inr h1
  · rename_i hcase2
    split
    · rename_i hcase1
      rw [mem_pushMoves, mem_map_move]
      constructor
      · rintro (h1 | h1)
        · exact Or.inl h1
        · exact Or.inr ⟨hne, heqf, hsub, hdiff, Or.inl ⟨hcase1, h1⟩⟩
      · rintro (h1 | ⟨-, -, -, -, ⟨-, h1⟩ | ⟨hc1, hc2, -⟩⟩)
        · exact Or.inl h1
        · exact Or.inr h1
        · exact absurd ⟨hc1, hc2⟩ hcase2
    · rename_i hcase1
      constructor
      · exact Or.inl
      · rintro (h1 | ⟨-, -, -, -, ⟨hc, -⟩ | ⟨hc1, hc2, -⟩⟩)
        · exact h1
        · exact absurd hc hcase1
        · exact absurd ⟨hc1, hc2⟩ hcase2

/-- What the whole of `apply_subset_rules` emits: some unordered index pair
`i < j`, both with non-empty hidden sets, emits the move in one of the two
directions. -/
def subsetRulesEmits (L : List FrontierCellView) (m : SolverMove) : Prop :=
  ∃ i j, i < L.length ∧ j < L.length ∧ i < j ∧
    (L.getD i noFrontierView).hidden_neighbors ≠ [] ∧
    (L.getD j noFrontierView).hidden_neighbors ≠ [] ∧
    (dirEmits (L.getD i noFrontierView).hidden_neighbors
        (L.getD j noFrontierView).hidden_neighbors
        (L.getD i noFrontierView).remaining_mines
        (L.getD j noFrontierView).remaining_mines m ∨
      dirEmits (L.getD j noFrontierView).hidden_neighbors
        (L.getD i noFrontierView).hidden_neighbors
        (L.getD j noFrontierView).remaining_mines
        (L.getD i noFrontierView).remaining_mines m)

theorem mem_apply_subset_rules (ctx : RuleContext) (m : SolverMove) :
    m ∈ apply_subset_rules ctx ↔ subsetRulesEmits ctx.frontier m := by
  unfold apply_subset_rules subsetRulesEmits
  refine Iff.trans (foldl_mem _ (fun i mm =>
      (ctx.frontier.getD i noFrontierView).hidden_neighbors ≠ [] ∧
      ∃ j, j < ctx.frontier.length ∧ i < j ∧
        (ctx.frontier.getD j noFrontierView).hidden_neighbors ≠ [] ∧
        (dirEmits (ctx.frontier.getD i noFrontierView).hidden_neighbors
            (ctx.frontier.getD j noFrontierView).hidden_neighbors
            (ctx.frontier.getD i noFrontierView).remaining_mines
            (ctx.frontier.getD j noFrontierView).remaining_mines mm ∨
          dirEmits (ctx.frontier.getD j noFrontierView).hidden_neighbors
            (ctx.frontier.getD i noFrontierView).hidden_neighbors
            (ctx.frontier.getD j noFrontierView).remaining_mines
            (ctx.frontier.getD i noFrontierView).remaining_mines mm)) ?_ _ _ _)
    ?_
  · intro acc i mm
    dsimp only
    split
    · rename_i hA
      rw [List.isEmpty_iff] at hA
      constructor
      · exact Or.inl
      · rintro (h1 | ⟨hne, -⟩)
        · exact h1
        · exact absurd hA hne
    · rename_i hA
      rw [List.isEmpty_iff] at hA
      refine Iff.trans (foldl_mem _ (fun j mm2 =>
          (ctx.frontier.getD j noFrontierView).hidden_neighbors ≠ [] ∧
          (dirEmits (ctx.frontier.getD i noFrontierView).hidden_neighbors
              (ctx.frontier.getD j noFrontierView).hidden_neighbors
              (ctx.frontier.getD i noFrontierView).remaining_mines
              (ctx.frontier.getD j noFrontierView).remaining_mines mm2 ∨
            dirEmits (ctx.frontier.getD j noFrontierView).hidden_neighbors
              (ctx.frontier.getD i noFrontierView).hidden_neighbors
              (ctx.frontier.getD j noFrontierView).remaining_mines
              (ctx.frontier.getD i noFrontierView).remaining_mines mm2))
        ?_ _ _ _) ?_
      · intro acc2 j mm2
        dsimp only
        split
        · rename_i hB
          rw [List.isEmpty_iff] at hB
          constructor
          · exact Or.inl
          · rintro (h1 | ⟨hne, -⟩)
            · exact h1
            · exact absurd hB hne
        · rename_i hB
          rw [List.isEmpty_iff] at hB
          rw [mem_directedSubsetMoves, mem_directedSubsetMoves]
          constructor
          · rintro ((h1 | h1) | h1)
            · exact Or.inl h1
            · exact Or.inr ⟨hB, Or.inl h1⟩
            · exact Or.inr ⟨hB, Or.inr h1⟩
          · rintro (h1 | ⟨-, h1 | h1⟩)
            · exact Or.inl (Or.inl h1)
            · exact Or.inl (Or.inr h1)
            · exact Or.inr h1
      · constructor
        · rintro (h1 | ⟨j, hj, h⟩)
          · exact Or.inl h1
          · rw [List.mem_range'_1] at hj
            exact Or.inr ⟨hA, j, by omega, by omega, h⟩
        · rintro (h1 | ⟨-, j, hj, hij, h⟩)
          · exact Or.inl h1
          · exact Or.inr ⟨j, List.mem_range'_1.mpr (by omega), h⟩
  · constructor
    · rintro (h1 | ⟨i, hi, hAne, j, hj, hij, h⟩)
      · cases h1
      · rw [List.mem_range] at hi
        exact ⟨i, j, hi, hj, hij, hAne, h⟩
    · rintro ⟨i, j, hi, hj, hij, hAne, h⟩
      exact Or.inr ⟨i, List.mem_range.mpr hi, hAne, j, hj, hij, h⟩

/-! ## Bridging the two subset implementations -/

theorem subsetList_iff (a b : List Coord) :
    subsetList a b = true ↔ ∀ x ∈ a, x ∈ b := by
  unfold subsetList
  rw [List.all_eq_true]
  simp

theorem listDiff_mem (hb ha : List Coord) (q : Coord) :
    q ∈ listDiff hb ha ↔ q ∈ hb ∧ ¬ q ∈ ha := by
  unfold listDiff
  rw [List.mem_filter, decide_eq_true_eq]

theorem hiddenNeighbors_facts (b : Board) (r c : Int) (q : Coord)
    (hq : q ∈ hiddenNeighbors b r c) :
    q ∈ allCoords b.rows b.cols ∧ (b.cells q).is_revealed = false ∧
      (b.cells q).is_flagged = false := by
  unfold hiddenNeighbors at hq
  rw [List.mem_filter, Bool.and_eq_true] at hq
  obtain ⟨hmem, hflag, hrev⟩ := hq
  simp only [Bool.not_eq_true'] at hrev hflag
  exact ⟨getNeighbors_mem_allCoords b r c q hmem, hrev, hflag⟩

theorem iter_frontier_hidden_facts (b : Board) (fv : FrontierCellView)
    (hfv : fv ∈ iter_frontier_cells b) :
    fv.hidden_neighbors ≠ [] ∧
    ∀ q ∈ fv.hidden_neighbors,
      q ∈ allCoords b.rows b.cols ∧ (b.cells q).is_revealed = false ∧
        (b.cells q).is_flagged = false := by
  obtain ⟨p, -, -, -, hhid, rfl⟩ := (mem_iter_frontier_cells b fv).mp hfv
  exact ⟨hhid, fun q hq => hiddenNeighbors_facts b p.1 p.2 q hq⟩

theorem getD_mem_of_lt {α : Type} (L : List α) (i : Nat) (d : α)
    (hi : i < L.length) : L.getD i d ∈ L := by
  rw [List.getD_eq_getElem _ _ hi]
  exact List.getElem_mem hi

theorem getD_map_viewToData (L : List FrontierCellView) (i : Nat)
    (hi : i < L.length) :
    (L.map viewToData).getD i noFrontierData =
      viewToData (L.getD i noFrontierView) := by
  rw [List.getD_eq_getElem _ _ (by simpa using hi),
    List.getD_eq_getElem _ _ hi, List.getElem_map]

/-- For views whose hidden cells are really hidden on the board (true of
every view of `iter_frontier_cells`), the solver's pair emission and the
rules module's directed emission coincide. -/
theorem pairEmits_iff_dir (b : Board) (A B : FrontierCellView)
    (hB : ∀ q ∈ B.hidden_neighbors,
        (b.cells q).is_revealed = false ∧ (b.cells q).is_flagged = false)
    (m : SolverMove) :
    (A.hidden_neighbors ≠ [] ∧ pairEmits b (viewToData A) (viewToData B) m) ↔
      (B.hidden_neighbors ≠ [] ∧
        dirEmits A.hidden_neighbors B.hidden_neighbors
          A.remaining_mines B.remaining_mines m) := by
  unfold pairEmits dirEmits viewToData diffEmit
  dsimp only
  constructor
  · rintro ⟨hAne, hBne, hsub, hdiff, hpos, hcase⟩
    have hseq : setEqList A.hidden_neighbors B.hidden_neighbors = false := by
      obtain ⟨x, hx⟩ := List.exists_mem_of_ne_nil _ hdiff
      rw [listDiff_mem] at hx
      have hBA : subsetList B.hidden_neighbors A.hidden_neighbors = false := by
        cases hx2 : subsetList B.hidden_neighbors A.hidden_neighbors
        · rfl
        · rw [subsetList_iff] at hx2
          exact absurd (hx2 x hx.1) hx.2
      unfold setEqList
      rw [hBA, Bool.and_false]
    refine ⟨hBne, hAne, hseq, hsub, hdiff, ?_⟩
    rcases hcase with ⟨hz, q, hq, -, -, rfl⟩ | ⟨hnz, hlen2, q, hq, -, -, rfl⟩
    · exact Or.inl ⟨by omega, q, hq, rfl⟩
    · exact Or.inr ⟨hlen2, by omega, q, hq, rfl⟩
  · rintro ⟨hBne, hAne, hseq, hsub, hdiff, hcase⟩
    have hlen : 0 < (listDiff B.hidden_neighbors A.hidden_neighbors).length :=
      List.length_pos_of_ne_nil hdiff
    rcases hcase with ⟨heq, q, hq, rfl⟩ | ⟨hlen2, hpos2, q, hq, rfl⟩
    · have hfacts := hB q ((listDiff_mem _ _ q).mp hq).1
      exact ⟨hAne, hBne, hsub, hdiff, by omega,
        Or.inl ⟨by omega, q, hq, hfacts.1, hfacts.2, rfl⟩⟩
    · have hfacts := hB q ((listDiff_mem _ _ q).mp hq).1
      exact ⟨hAne, hBne, hsub, hdiff, by omega,
        Or.inr ⟨by omega, hlen2, q, hq, hfacts.1, hfacts.2, rfl⟩⟩

/-- C9: refinement between the two solver implementations — on every board
a move is returned by `MinemindSolver.solve_step` iff it is returned by
`apply_trivial_rules` or by `apply_subset_rules` over the frontier that
`iter_frontier_cells`/`collect_frontier` produce for the same board (the
move sets coincide; orders and deduplication scopes differ). -/
theorem solve_step_eq_rules_union (b : Board) (m : SolverMove) :
    m ∈ solve_step b ↔
      m ∈ apply_trivial_rules ⟨b, collect_frontier b⟩ ∨
        m ∈ apply_subset_rules ⟨b, collect_frontier b⟩ := by
  rw [mem_solve_step, mem_apply_trivial_rules, mem_apply_subset_rules]
  unfold collect_frontier
  dsimp only
  constructor
  · rintro (h | h)
    · exact Or.inl h
    · obtain ⟨i, j, hi, hj, hij, hAne, hpair⟩ := h
      rw [List.length_map] at hi hj
      rw [getD_map_viewToData _ _ hi] at hAne
      rw [getD_map_viewToData _ _ hi, getD_map_viewToData _ _ hj] at hpair
      have hfactsj := iter_frontier_hidden_facts b _
        (getD_mem_of_lt (iter_frontier_cells b) j noFrontierView hj)
      have hd := (pairEmits_iff_dir b
        ((iter_frontier_cells b).getD i noFrontierView)
        ((iter_frontier_cells b).getD j noFrontierView)
        (fun q hq => ⟨(hfactsj.2 q hq).2.1, (hfactsj.2 q hq).2.2⟩) m).mp
        ⟨hAne, hpair⟩
      rcases Nat.lt_or_ge i j with hlt | hge
      · exact Or.inr ⟨i, j, hi, hj, hlt, hAne, hd.1, Or.inl hd.2⟩
      · exact Or.inr ⟨j, i, hj, hi, by omega, hd.1, hAne, Or.inr hd.2⟩
  · rintro (h | h)
    · exact Or.inl h
    · obtain ⟨i, j, hi, hj, hij, hAne, hBne, hcase⟩ := h
      have hfactsi := iter_frontier_hidden_facts b _
        (getD_mem_of_lt (iter_frontier_cells b) i noFrontierView hi)
      have hfactsj := iter_frontier_hidden_facts b _
        (getD_mem_of_lt (iter_frontier_cells b) j noFrontierView hj)
      rcases hcase with hdir | hdir
      · have hp := (pairEmits_iff_dir b
          ((iter_frontier_cells b).getD i noFrontierView)
          ((iter_frontier_cells b).getD j noFrontierView)
          (fun q hq => ⟨(hfactsj.2 q hq).2.1, (hfactsj.2 q hq).2.2⟩) m).mpr
          ⟨hBne, hdir⟩
        refine Or.inr ⟨i, j, by simpa using hi, by simpa using hj, by omega,
          ?_, ?_⟩
        · rw [getD_map_viewToData _ _ hi]
          exact hp.1
        · rw [getD_map_viewToData _ _ hi, getD_map_viewToData _ _ hj]
          exact hp.2
      · have hp := (pairEmits_iff_dir b
          ((iter_frontier_cells b).getD j noFrontierView)
          ((iter_frontier_cells b).getD i noFrontierView)
          (fun q hq => ⟨(hfactsi.2 q hq).2.1, (hfactsi.2 q hq).2.2⟩) m).mpr
          ⟨hAne, hdir⟩
        refine Or.inr ⟨j, i, by simpa using hj, by simpa using hi, by omega,
          ?_, ?_⟩
        · rw [getD_map_viewToData _ _ hj]
          exact hp.1
        · rw [getD_map_viewToData _ _ hj, getD_map_viewToData _ _ hi]
          exact hp.2

/-- C10: every move returned by `solve_step` has in-bounds coordinates and
targets a cell that is neither revealed nor flagged; hence, while the game
is `"PLAYING"`, applying it through `reveal`/`flag` cannot hit the
already-revealed/already-flagged no-op branch (whose guard is exactly the
negation of these cell conditions). -/
theorem solve_step_moves_applicable (b : Board) (r c : Int) (a : String)
    (h : (r, c, a) ∈ solve_step b) :
    (0 ≤ r ∧ r < b.rows ∧ 0 ≤ c ∧ c < b.cols) ∧
    (b.cells (r, c)).is_revealed = false ∧
    (b.cells (r, c)).is_flagged = false := by
  rw [mem_solve_step] at h
  have key : ∃ q, q ∈ allCoords b.rows b.cols ∧
      (b.cells q).is_revealed = false ∧ (b.cells q).is_flagged = false ∧
      q.1 = r ∧ q.2 = c := by
    rcases h with ⟨fv, hfv, hE⟩ | h
    · have hfacts := iter_frontier_hidden_facts b fv hfv
      obtain ⟨-, ⟨-, -, q, hq, heq⟩ | ⟨-, q, hq, heq⟩⟩ := hE
      · obtain ⟨h1, h2, h3⟩ := hfacts.2 q hq
        exact ⟨q, h1, h2, h3, congrArg (fun x => x.1) heq.symm,
          congrArg (fun x => x.2.1) heq.symm⟩
      · obtain ⟨h1, h2, h3⟩ := hfacts.2 q hq
        exact ⟨q, h1, h2, h3, congrArg (fun x => x.1) heq.symm,
          congrArg (fun x => x.2.1) heq.symm⟩
    · obtain ⟨i, j, hi, hj, hij, hAne, hpair⟩ := h
      rw [List.length_map] at hi hj
      rw [getD_map_viewToData _ _ hi, getD_map_viewToData _ _ hj] at hpair
      have hfactsj := iter_frontier_hidden_facts b _
        (getD_mem_of_lt (iter_frontier_cells b) j noFrontierView hj)
      obtain ⟨-, -, hdiffne, -, hcase⟩ := hpair
      rcases hcase with ⟨-, q, hq, h2, h3, heq⟩ | ⟨-, -, q, hq, h2, h3, heq⟩
      · have hqB := ((listDiff_mem _ _ q).mp hq).1
        exact ⟨q, (hfactsj.2 q hqB).1, h2, h3,
          congrArg (fun x => x.1) heq.symm,
          congrArg (fun x => x.2.1) heq.symm⟩
      · have hqB := ((listDiff_mem _ _ q).mp hq).1
        exact ⟨q, (hfactsj.2 q hqB).1, h2, h3,
          congrArg (fun x => x.1) heq.symm,
          congrArg (fun x => x.2.1) heq.symm⟩
  obtain ⟨q, hmem, hrev, hflag, hr, hc⟩ := key
  have hq : q = (r, c) := by
    obtain ⟨q1, q2⟩ := q
    simp only at hr hc
    rw [hr, hc]
  subst hq
  rw [mem_allCoords] at hmem
  exact ⟨hmem, hrev, hflag⟩

/-- Witness for C10: on the `earlyExitBoard`, `(1, 2, "REVEAL")` is a
returned move and the theorem yields its applicability facts. -/
theorem solve_step_moves_applicable_witness :
    ((1 : Int), (2 : Int), "REVEAL") ∈ solve_step earlyExitBoard ∧
    ((0 ≤ (1 : Int) ∧ (1 : Int) < earlyExitBoard.rows ∧ 0 ≤ (2 : Int) ∧
        (2 : Int) < earlyExitBoard.cols) ∧
      (earlyExitBoard.cells (1, 2)).is_revealed = false ∧
      (earlyExitBoard.cells (1, 2)).is_flagged = false) := by
  have hmem : ((1 : Int), (2 : Int), "REVEAL") ∈ solve_step earlyExitBoard :=
    by decide
  exact ⟨hmem, solve_step_moves_applicable earlyExitBoard 1 2 "REVEAL" hmem⟩

theorem pairEmits_viewToData (b : Board) (A B : FrontierCellView)
    (m : SolverMove) :
    pairEmits b (viewToData A) (viewToData B) m ↔
      B.hidden_neighbors ≠ [] ∧
      subsetList A.hidden_neighbors B.hidden_neighbors = true ∧
      listDiff B.hidden_neighbors A.hidden_neighbors ≠ [] ∧
      0 ≤ B.remaining_mines - A.remaining_mines ∧
      ((B.remaining_mines - A.remaining_mines = 0 ∧
          diffEmit b (listDiff B.hidden_neighbors A.hidden_neighbors)
            "REVEAL" m) ∨
        (B.remaining_mines - A.remaining_mines ≠ 0 ∧
          B.remaining_mines - A.remaining_mines =
            ((listDiff B.hidden_neighbors A.hidden_neighbors).length : Int) ∧
          diffEmit b (listDiff B.hidden_neighbors A.hidden_neighbors)
            "FLAG" m)) :=
  Iff.rfl

/-- C3: the subset rule.  For distinct frontier views `A` (index `i`) and
`B` (index `j`) of the same board whose hidden sets satisfy
`H_A ⊂ H_B` strictly (inclusion plus non-empty difference), with
`extra = m_B - m_A`: if `extra = 0` every difference cell is returned as a
REVEAL move; if `extra = |diff| > 0` every difference cell is returned as a
FLAG move; if `extra < 0` the ordered pair is skipped and contributes no
moves.  Quantifying over all ordered index pairs `i ≠ j` covers both
orderings of each pair. -/
theorem subset_rule_emissions (b : Board) (i j : Nat)
    (A B : FrontierCellView)
    (hi : i < (collect_frontier b).length)
    (hj : j < (collect_frontier b).length) (hij : i ≠ j)
    (hA : A = (collect_frontier b).getD i noFrontierView)
    (hB : B = (collect_frontier b).getD j noFrontierView)
    (hsub : ∀ x ∈ A.hidden_neighbors, x ∈ B.hidden_neighbors)
    (hdiff : listDiff B.hidden_neighbors A.hidden_neighbors ≠ []) :
    (B.remaining_mines - A.remaining_mines = 0 →
      ∀ q ∈ listDiff B.hidden_neighbors A.hidden_neighbors,
        (q.1, q.2, "REVEAL") ∈ solve_step b) ∧
    (B.remaining_mines - A.remaining_mines =
        ((listDiff B.hidden_neighbors A.hidden_neighbors).length : Int) ∧
      0 < B.remaining_mines - A.remaining_mines →
      ∀ q ∈ listDiff B.hidden_neighbors A.hidden_neighbors,
        (q.1, q.2, "FLAG") ∈ solve_step b) ∧
    (B.remaining_mines - A.remaining_mines < 0 →
      ∀ ms, processPair b (viewToData A) (viewToData B) ms = ms) := by
  subst hA hB
  unfold collect_frontier at hi hj hsub hdiff ⊢
  have hfactsA := iter_frontier_hidden_facts b _
    (getD_mem_of_lt (iter_frontier_cells b) i noFrontierView hi)
  have hfactsB := iter_frontier_hidden_facts b _
    (getD_mem_of_lt (iter_frontier_cells b) j noFrontierView hj)
  have hemit : ∀ (q : Coord) (act : String),
      q ∈ listDiff ((iter_frontier_cells b).getD j noFrontierView).hidden_neighbors
        ((iter_frontier_cells b).getD i noFrontierView).hidden_neighbors →
      pairEmits b
        (viewToData ((iter_frontier_cells b).getD i noFrontierView))
        (viewToData ((iter_frontier_cells b).getD j noFrontierView))
        (q.1, q.2, act) →
      (q.1, q.2, act) ∈ solve_step b := by
    intro q act hq hpair
    refine (mem_solve_step b _).mpr (Or.inr ⟨i, j, by simpa using hi,
      by simpa using hj, hij, ?_, ?_⟩)
    · rw [getD_map_viewToData _ _ hi]
      exact hfactsA.1
    · rw [getD_map_viewToData _ _ hi, getD_map_viewToData _ _ hj]
      exact hpair
  refine ⟨?_, ?_, ?_⟩
  · intro hzero q hq
    refine hemit q "REVEAL" hq ((pairEmits_viewToData ..).mpr ?_)
    refine ⟨hfactsB.1, (subsetList_iff _ _).mpr hsub, hdiff, by omega, ?_⟩
    have hfacts := hfactsB.2 q ((listDiff_mem _ _ q).mp hq).1
    exact Or.inl ⟨by omega, q, hq, hfacts.2.1, hfacts.2.2, rfl⟩
  · rintro ⟨hlen, hpos⟩ q hq
    refine hemit q "FLAG" hq ((pairEmits_viewToData ..).mpr ?_)
    refine ⟨hfactsB.1, (subsetList_iff _ _).mpr hsub, hdiff, by omega, ?_⟩
    have hfacts := hfactsB.2 q ((listDiff_mem _ _ q).mp hq).1
    exact Or.inr ⟨by omega, hlen, q, hq, hfacts.2.1, hfacts.2.2, rfl⟩
  · intro hneg ms
    unfold processPair
    split
    · rfl
    split
    · rfl
    dsimp only
    split
    · rfl
    split
    · rfl
    · rename_i hpos
      exact absurd hneg hpos

/-- Witness for C3 on `subsetBoard`: the pair of views at indices 0 and 1
satisfies the subset hypotheses with `extra = 0`, and the theorem delivers
the difference cell's REVEAL move in `solve_step`'s output. -/
theorem subset_rule_emissions_witness :
    (0 < (collect_frontier subsetBoard).length ∧
      1 < (collect_frontier subsetBoard).length ∧
      ((collect_frontier subsetBoard).getD 1 noFrontierView).remaining_mines -
        ((collect_frontier subsetBoard).getD 0 noFrontierView).remaining_mines
        = 0) ∧
    ((2 : Int), (1 : Int), "REVEAL") ∈ solve_step subsetBoard := by
  refine ⟨⟨by decide, by decide, by decide⟩, ?_⟩
  exact (subset_rule_emissions subsetBoard 0 1 _ _ (by decide) (by decide)
    (by decide) rfl rfl (by decide) (by decide)).1 (by decide)
    ((2 : Int), (1 : Int)) (by decide)

/-! ## C2: solver soundness -/

theorem getNeighborsCoords_nodup (rows cols r c : Int) :
    (getNeighborsCoords rows cols r c).Nodup := by
  unfold getNeighborsCoords
  refine List.Nodup.filter _ (List.Nodup.map ?_ ?_)
  · rintro ⟨a1, a2⟩ ⟨b1, b2⟩ h
    have h1 : r + a1 = r + b1 := congrArg Prod.fst h
    have h2 : c + a2 = c + b2 := congrArg Prod.snd h
    rw [Prod.mk.injEq]
    omega
  · unfold neighborOffsets
    decide

theorem hiddenNeighbors_nodup (b : Board) (r c : Int) :
    (hiddenNeighbors b r c).Nodup :=
  (getNeighborsCoords_nodup b.rows b.cols r c).filter _

theorem countP_flag_or_split (b : Board) (μ : Coord → Bool)
    (l : List Coord) :
    l.countP (fun q => (b.cells q).is_flagged ||
        (!(b.cells q).is_flagged && !(b.cells q).is_revealed && μ q)) =
      l.countP (fun q => (b.cells q).is_flagged) +
        l.countP
          (fun q => !(b.cells q).is_flagged && !(b.cells q).is_revealed &&
            μ q) := by
  induction l with
  | nil => rfl
  | cons x xs ih =>
    simp only [List.countP_cons, ih]
    cases (b.cells x).is_flagged <;> cases (b.cells x).is_revealed <;>
      cases μ x <;> simp <;> omega

theorem countP_hidden_of_neighbors (b : Board) (μ : Coord → Bool)
    (r c : Int) :
    (b.getNeighbors r c).countP
        (fun q => !(b.cells q).is_flagged && !(b.cells q).is_revealed && μ q) =
      (hiddenNeighbors b r c).countP μ := by
  unfold hiddenNeighbors
  rw [List.countP_filter]
  apply List.countP_congr
  intro q _
  cases (b.cells q).is_flagged <;> cases (b.cells q).is_revealed <;>
    cases μ q <;> rfl

/-- A mine assignment over the hidden cells that satisfies every
currently-visible numeric constraint: each in-bounds revealed numbered
cell's `neighbor_mines` equals its count of flagged-or-assigned-mine
neighbours (flagged neighbours, plus hidden neighbours the assignment makes
mines). -/
def Satisfies (b : Board) (μ : Coord → Bool) : Prop :=
  ∀ p ∈ allCoords b.rows b.cols,
    (b.cells p).is_revealed = true → (b.cells p).neighbor_mines ≠ 0 →
    (b.cells p).neighbor_mines =
      (b.getNeighbors p.1 p.2).countP
        (fun q => (b.cells q).is_flagged ||
          (!(b.cells q).is_flagged && !(b.cells q).is_revealed && μ q))

/-- Under a satisfying assignment, every frontier view's remaining-mine
count equals the number of assigned mines among its hidden neighbours. -/
theorem satisfies_view_count (b : Board) (μ : Coord → Bool)
    (hS : Satisfies b μ) (fv : FrontierCellView)
    (hfv : fv ∈ iter_frontier_cells b) :
    fv.remaining_mines = ((fv.hidden_neighbors.countP μ : Nat) : Int) := by
  obtain ⟨p, hmem, hrev, hcount, hhid, rfl⟩ :=
    (mem_iter_frontier_cells b fv).mp hfv
  have hc := hS p hmem hrev hcount
  rw [countP_flag_or_split, countP_hidden_of_neighbors] at hc
  unfold viewAt flaggedNeighborCount
  dsimp only
  omega

/-- Splitting an assigned-mine count over a subset inclusion: for nodup
coordinate lists with `A ⊆ B`, the count over `B` is the count over `A`
plus the count over the set difference. -/
theorem countP_subset_split (μ : Coord → Bool) (A B : List Coord)
    (hA : A.Nodup) (hB : B.Nodup) (hsub : ∀ x ∈ A, x ∈ B) :
    B.countP μ = A.countP μ + (listDiff B A).countP μ := by
  have hperm : List.Perm
      (B.filter (fun x => decide (x ∈ A)) ++
        B.filter (fun x => !(decide (x ∈ A)))) B :=
    List.filter_append_perm _ B
  have hdiffeq : B.filter (fun x => !(decide (x ∈ A))) = listDiff B A := by
    unfold listDiff
    apply List.filter_congr
    intro x _
    cases hx : decide (x ∈ A)
    · simp at hx
      simp [hx]
    · simp at hx
      simp [hx]
  have hpermA : List.Perm (B.filter (fun x => decide (x ∈ A))) A := by
    rw [List.perm_ext_iff_of_nodup (hB.filter _) hA]
    intro x
    rw [List.mem_filter, decide_eq_true_eq]
    constructor
    · rintro ⟨-, hx⟩
      exact hx
    · intro hx
      exact ⟨hsub x hx, hx⟩
  have h1 := hperm.countP_eq μ
  rw [List.countP_append, hdiffeq, hpermA.countP_eq μ] at h1
  omega

/-- C2: solver soundness.  Every move `(r, c, action)` returned by
`solve_step` is right in every mine assignment over the hidden cells that
satisfies all currently-visible numeric constraints: a FLAG target is a
mine in every satisfying assignment and a REVEAL target is a non-mine in
every satisfying assignment (so each move is consistent with any satisfying
assignment there is). -/
theorem view_hidden_nodup (b : Board) (fv : FrontierCellView)
    (hfv : fv ∈ iter_frontier_cells b) : fv.hidden_neighbors.Nodup := by
  obtain ⟨p, -, -, -, -, rfl⟩ := (mem_iter_frontier_cells b fv).mp hfv
  exact hiddenNeighbors_nodup b p.1 p.2

theorem solve_step_sound (b : Board) (μ : Coord → Bool) (hS : Satisfies b μ)
    (r c : Int) (a : String) (h : (r, c, a) ∈ solve_step b) :
    (a = "FLAG" → μ (r, c) = true) ∧ (a = "REVEAL" → μ (r, c) = false) := by
  rw [mem_solve_step] at h
  rcases h with ⟨fv, hfv, hE⟩ | h
  · have hrem := satisfies_view_count b μ hS fv hfv
    obtain ⟨-, ⟨hlen, hpos, q, hq, heq⟩ | ⟨hzero, q, hq, heq⟩⟩ := hE
    · obtain ⟨q1, q2⟩ := q
      have hr : r = q1 := congrArg Prod.fst heq
      have hc2 : c = q2 := congrArg (fun x => x.2.1) heq
      have ha : a = "FLAG" := congrArg (fun x => x.2.2) heq
      have hcnt : fv.hidden_neighbors.countP μ = fv.hidden_neighbors.length :=
        by omega
      have hμ : μ (q1, q2) = true :=
        List.countP_eq_length.mp hcnt (q1, q2) hq
      subst hr hc2
      refine ⟨fun _ => hμ, fun hRev => ?_⟩
      rw [ha] at hRev
      exact absurd hRev (by decide)
    · obtain ⟨q1, q2⟩ := q
      have hr : r = q1 := congrArg Prod.fst heq
      have hc2 : c = q2 := congrArg (fun x => x.2.1) heq
      have ha : a = "REVEAL" := congrArg (fun x => x.2.2) heq
      have hcnt : fv.hidden_neighbors.countP μ = 0 := by omega
      have hall := List.countP_eq_zero.mp hcnt
      have hμ : μ (q1, q2) = false := by
        cases hb : μ (q1, q2)
        · rfl
        · exact absurd hb (hall (q1, q2) hq)
      subst hr hc2
      refine ⟨fun hFl => ?_, fun _ => hμ⟩
      rw [ha] at hFl
      exact absurd hFl (by decide)
  · obtain ⟨i, j, hi, hj, hij, hAne, hpair⟩ := h
    rw [List.length_map] at hi hj
    rw [getD_map_viewToData _ _ hi, getD_map_viewToData _ _ hj,
      pairEmits_viewToData] at hpair
    have hmemA := getD_mem_of_lt (iter_frontier_cells b) i noFrontierView hi
    have hmemB := getD_mem_of_lt (iter_frontier_cells b) j noFrontierView hj
    have hremA := satisfies_view_count b μ hS _ hmemA
    have hremB := satisfies_view_count b μ hS _ hmemB
    have hnodA := view_hidden_nodup b _ hmemA
    have hnodB := view_hidden_nodup b _ hmemB
    obtain ⟨hBne, hsubL, hdiffne, hpos, hcase⟩ := hpair
    have hsplit := countP_subset_split μ
      ((iter_frontier_cells b).getD i noFrontierView).hidden_neighbors
      ((iter_frontier_cells b).getD j noFrontierView).hidden_neighbors
      hnodA hnodB ((subsetList_iff _ _).mp hsubL)
    rcases hcase with ⟨hz, q, hq, -, -, heq⟩ | ⟨hnz, hlen, q, hq, -, -, heq⟩
    · obtain ⟨q1, q2⟩ := q
      have hr : r = q1 := congrArg Prod.fst heq
      have hc2 : c = q2 := congrArg (fun x => x.2.1) heq
      have ha : a = "REVEAL" := congrArg (fun x => x.2.2) heq
      have hcnt : (listDiff
          ((iter_frontier_cells b).getD j noFrontierView).hidden_neighbors
          ((iter_frontier_cells b).getD i noFrontierView).hidden_neighbors
          ).countP μ = 0 := by omega
      have hall := List.countP_eq_zero.mp hcnt
      have hμ : μ (q1, q2) = false := by
        cases hb : μ (q1, q2)
        · rfl
        · exact absurd hb (hall (q1, q2) hq)
      subst hr hc2
      refine ⟨fun hFl => ?_, fun _ => hμ⟩
      rw [ha] at hFl
      exact absurd hFl (by decide)
    · obtain ⟨q1, q2⟩ := q
      have hr : r = q1 := congrArg Prod.fst heq
      have hc2 : c = q2 := congrArg (fun x => x.2.1) heq
      have ha : a = "FLAG" := congrArg (fun x => x.2.2) heq
      have hcnt : (listDiff
          ((iter_frontier_cells b).getD j noFrontierView).hidden_neighbors
          ((iter_frontier_cells b).getD i noFrontierView).hidden_neighbors
          ).countP μ =
          (listDiff
          ((iter_frontier_cells b).getD j noFrontierView).hidden_neighbors
          ((iter_frontier_cells b).getD i noFrontierView).hidden_neighbors
          ).length := by omega
      have hμ : μ (q1, q2) = true :=
        List.countP_eq_length.mp hcnt (q1, q2) hq
      subst hr hc2
      refine ⟨fun _ => hμ, fun hRev => ?_⟩
      rw [ha] at hRev
      exact absurd hRev (by decide)

/-- The one-cell scenario for the soundness witness: a 1x2 board whose
revealed `1` at (0,0) forces its only hidden neighbour (0,1) to be a mine;
the assignment making exactly (0,1) a mine satisfies the constraints. -/
def soundnessBoard : Board :=
  { rows := 1, cols := 2, mines := 1, state := "PLAYING", mines_placed := true,
    cells := fun p =>
      if p = (0, 0) then ⟨false, 1, true, false⟩
      else ⟨true, 0, false, false⟩ }

/-- Witness for C2 on `soundnessBoard`: the assignment `μ = (· = (0,1))`
satisfies the constraints, `solve_step` returns the flag move at (0,1),
and the theorem concludes `μ (0,1) = true`. -/
theorem solve_step_sound_witness :
    Satisfies soundnessBoard (fun p => decide (p = (0, 1))) ∧
    ((0 : Int), (1 : Int), "FLAG") ∈ solve_step soundnessBoard ∧
    (fun (p : Coord) => decide (p = (0, 1))) ((0 : Int), (1 : Int)) = true := by
  have hS : Satisfies soundnessBoard (fun p => decide (p = (0, 1))) := by
    unfold Satisfies
    decide
  have hmem : ((0 : Int), (1 : Int), "FLAG") ∈ solve_step soundnessBoard :=
    by decide
  exact ⟨hS, hmem,
    (solve_step_sound soundnessBoard _ hS 0 1 "FLAG" hmem).1 rfl⟩

/-! ## C6: the flood boundary property -/

/-- A cell that is hidden (neither revealed nor flagged) on a board. -/
def Hidden (b : Board) (p : Coord) : Prop :=
  (b.cells p).is_revealed = false ∧ (b.cells p).is_flagged = false

/-- Chain reachability of the flood cascade started at `o`: the origin
itself, plus every cell reachable from it through chains of adjacent,
unflagged, previously-unrevealed zero-count cells. -/
inductive FloodReach (b : Board) (o : Coord) : Coord → Prop where
  | origin : FloodReach b o o
  | step (x p : Coord) : FloodReach b o x → p ∈ b.getNeighbors x.1 x.2 →
      (b.cells p).is_revealed = false → (b.cells p).is_flagged = false →
      (b.cells p).neighbor_mines = 0 → FloodReach b o p

/-- The cells the cascade newly reveals: hidden cells adjacent to some
reachable zero cell — i.e. the reachable hidden zeros themselves together
with their numbered rim. -/
def FloodTarget (b : Board) (o : Coord) (p : Coord) : Prop :=
  Hidden b p ∧ ∃ x, FloodReach b o x ∧ p ∈ b.getNeighbors x.1 x.2

theorem floodReach_inv (b : Board) (o x : Coord) (h : FloodReach b o x) :
    x = o ∨ ((b.cells x).is_revealed = false ∧
      (b.cells x).is_flagged = false ∧ (b.cells x).neighbor_mines = 0 ∧
      ∃ y, FloodReach b o y ∧ x ∈ b.getNeighbors y.1 y.2) := by
  cases h with
  | origin => exact Or.inl rfl
  | step y p hy hadj hrev hflag hzero =>
    exact Or.inr ⟨hrev, hflag, hzero, y, hy, hadj⟩

theorem processNeighbors_spec (ns : List Coord) (hnodup : ns.Nodup)
    (cur : Board) (acc : List Coord) :
    ((processNeighbors cur ns acc).1.rows = cur.rows ∧
      (processNeighbors cur ns acc).1.cols = cur.cols ∧
      (processNeighbors cur ns acc).1.state = cur.state ∧
      (processNeighbors cur ns acc).1.mines = cur.mines ∧
      (processNeighbors cur ns acc).1.mines_placed = cur.mines_placed) ∧
    (∀ p, (p ∈ ns → (cur.cells p).is_revealed = false →
        (cur.cells p).is_flagged = false →
        (processNeighbors cur ns acc).1.cells p = revealCell (cur.cells p)) ∧
      ((p ∉ ns ∨ (cur.cells p).is_revealed = true ∨
          (cur.cells p).is_flagged = true) →
        (processNeighbors cur ns acc).1.cells p = cur.cells p)) ∧
    (∀ y, y ∈ (processNeighbors cur ns acc).2 ↔ y ∈ acc ∨ (y ∈ ns ∧
      (cur.cells y).is_revealed = false ∧ (cur.cells y).is_flagged = false ∧
      (cur.cells y).neighbor_mines = 0)) := by
  induction ns generalizing cur acc with
  | nil =>
    refine ⟨⟨rfl, rfl, rfl, rfl, rfl⟩, ?_, ?_⟩
    · intro p
      exact ⟨fun h => absurd h (List.not_mem_nil p), fun _ => rfl⟩
    · intro y
      simp [processNeighbors]
  | cons x rest ih =>
    obtain ⟨hx, hrest⟩ := List.nodup_cons.mp hnodup
    show ((processNeighbors cur (x :: rest) acc).1.rows = cur.rows ∧ _) ∧ _
    by_cases hskip : ((cur.cells x).is_revealed ||
        (cur.cells x).is_flagged) = true
    · have heq : processNeighbors cur (x :: rest) acc =
          processNeighbors cur rest acc := by
        conv_lhs => rw [processNeighbors]
        dsimp only
        rw [if_pos hskip]
      rw [heq]
      obtain ⟨h1, h2, h3⟩ := ih hrest cur acc
      rw [Bool.or_eq_true] at hskip
      refine ⟨h1, ?_, ?_⟩
      · intro p
        refine ⟨?_, ?_⟩
        · intro hp hprev hpflag
          rcases List.mem_cons.mp hp with rfl | hp'
          · rcases hskip with h | h
            · rw [hprev] at h
              cases h
            · rw [hpflag] at h
              cases h
          · exact (h2 p).1 hp' hprev hpflag
        · intro hp
          refine (h2 p).2 ?_
          rcases hp with hp | hp | hp
          · exact Or.inl (fun hc => hp (List.mem_cons_of_mem _ hc))
          · exact Or.inr (Or.inl hp)
          · exact Or.inr (Or.inr hp)
      · intro y
        rw [h3 y]
        constructor
        · rintro (h | ⟨hy, hrest2⟩)
          · exact Or.inl h
          · exact Or.inr ⟨List.mem_cons_of_mem _ hy, hrest2⟩
        · rintro (h | ⟨hy, hyrev, hyflag, hyzero⟩)
          · exact Or.inl h
          · rcases List.mem_cons.mp hy with rfl | hy'
            · rcases hskip with h | h
              · rw [hyrev] at h
                cases h
              · rw [hyflag] at h
                cases h
            · exact Or.inr ⟨hy', hyrev, hyflag, hyzero⟩
    · have hskip' := hskip
      rw [Bool.or_eq_true, not_or] at hskip'
      obtain ⟨hxrev, hxflag⟩ := hskip'
      rw [Bool.not_eq_true] at hxrev hxflag
      have heq : processNeighbors cur (x :: rest) acc =
          processNeighbors (cur.setCell x (revealCell (cur.cells x))) rest
            (if (cur.cells x).neighbor_mines = 0 then acc ++ [x] else acc) := by
        conv_lhs => rw [processNeighbors]
        dsimp only
        rw [if_neg hskip]
        split
        · rfl
        · rfl
      rw [heq]
      have hcells : ∀ q, q ≠ x →
          ((cur.setCell x (revealCell (cur.cells x))).cells q) = cur.cells q := by
        intro q hq
        unfold Board.setCell
        dsimp only
        rw [if_neg hq]
      have hcellx : ((cur.setCell x (revealCell (cur.cells x))).cells x) =
          revealCell (cur.cells x) := by
        unfold Board.setCell
        dsimp only
        rw [if_pos rfl]
      obtain ⟨h1, h2, h3⟩ := ih hrest (cur.setCell x (revealCell (cur.cells x)))
        (if (cur.cells x).neighbor_mines = 0 then acc ++ [x] else acc)
      refine ⟨h1, ?_, ?_⟩
      · intro p
        refine ⟨?_, ?_⟩
        · intro hp hprev hpflag
          rcases List.mem_cons.mp hp with rfl | hp'
          · rw [(h2 p).2 (Or.inl hx), hcellx]
          · by_cases hpx : p = x
            · subst hpx
              rw [(h2 p).2 (Or.inl hx), hcellx]
            · rw [(h2 p).1 hp' (by rw [hcells p hpx]; exact hprev)
                (by rw [hcells p hpx]; exact hpflag), hcells p hpx]
        · intro hp
          have hpx : p ≠ x := by
            rintro rfl
            rcases hp with hp | hp | hp
            · exact hp (List.mem_cons_self ..)
            · rw [hxrev] at hp
              cases hp
            · rw [hxflag] at hp
              cases hp
          rw [(h2 p).2 ?_, hcells p hpx]
          rcases hp with hp | hp | hp
          · exact Or.inl (fun hc => hp (List.mem_cons_of_mem _ hc))
          · exact Or.inr (Or.inl (by rw [hcells p hpx]; exact hp))
          · exact Or.inr (Or.inr (by rw [hcells p hpx]; exact hp))
      · intro y
        rw [h3 y]
        by_cases hyx : y = x
        · subst hyx
          constructor
          · rintro (hin | ⟨hyr, -, -, -⟩)
            · split at hin
              · rename_i hz
                rcases List.mem_append.mp hin with h | h
                · exact Or.inl h
                · exact Or.inr ⟨List.mem_cons_self .., hxrev, hxflag, hz⟩
              · exact Or.inl hin
            · exact absurd hyr hx
          · rintro (hin | ⟨-, -, -, hz⟩)
            · exact Or.inl (by
                split
                · exact List.mem_append.mpr (Or.inl hin)
                · exact hin)
            · exact Or.inl (by
                rw [if_pos hz]
                exact List.mem_append.mpr (Or.inr (List.mem_cons_self ..)))
        · rw [hcells y hyx]
          constructor
          · rintro (hin | ⟨hyr, hrest2⟩)
            · split at hin
              · rcases List.mem_append.mp hin with h | h
                · exact Or.inl h
                · rw [List.mem_singleton] at h
                  exact absurd h hyx
              · exact Or.inl hin
            · exact Or.inr ⟨List.mem_cons_of_mem _ hyr, hrest2⟩
          · rintro (hin | ⟨hy, hrest2⟩)
            · exact Or.inl (by
                split
                · exact List.mem_append.mpr (Or.inl hin)
                · exact hin)
            · rcases List.mem_cons.mp hy with rfl | hy'
              · exact absurd rfl hyx
              · exact Or.inr ⟨hy', hrest2⟩

/-- The invariant of the `while queue` loop of `_flood_reveal`, relating
the working board `cur` and the queue to the board `b` at cascade start:
fields other than reveals are untouched, queue entries are revealed
reachable cells, every new reveal is a flood target, and every reachable
revealed cell that left the queue has all its hidden neighbours
revealed. -/
def FloodInv (b : Board) (o : Coord) (cur : Board) (queue : List Coord) :
    Prop :=
  cur.rows = b.rows ∧ cur.cols = b.cols ∧ cur.state = b.state ∧
  cur.mines = b.mines ∧ cur.mines_placed = b.mines_placed ∧
  (∀ x ∈ queue, FloodReach b o x ∧ (cur.cells x).is_revealed = true) ∧
  (∀ p, cur.cells p = b.cells p ∨
    (Hidden b p ∧ cur.cells p = revealCell (b.cells p))) ∧
  (∀ p, (cur.cells p).is_revealed = true →
    (b.cells p).is_revealed = true ∨ FloodTarget b o p) ∧
  (∀ x, FloodReach b o x → x ∉ queue → (cur.cells x).is_revealed = true →
    ∀ p ∈ b.getNeighbors x.1 x.2, Hidden b p →
      (cur.cells p).is_revealed = true)

theorem floodInv_step (b : Board) (o : Coord)
    (hrev : (b.cells o).is_revealed = true) (cur : Board) (x : Coord)
    (rest : List Coord) (hinv : FloodInv b o cur (x :: rest)) :
    FloodInv b o (processNeighbors cur (cur.getNeighbors x.1 x.2) []).1
      (rest ++ (processNeighbors cur (cur.getNeighbors x.1 x.2) []).2) := by
  obtain ⟨hrow, hcol, hstate, hmines, hplaced, hqueue, hcells, hsound, hcomp⟩ :=
    hinv
  have hns : cur.getNeighbors x.1 x.2 = b.getNeighbors x.1 x.2 := by
    unfold Board.getNeighbors
    rw [hrow, hcol]
  obtain ⟨hdims, hspec, hmem⟩ := processNeighbors_spec
    (cur.getNeighbors x.1 x.2)
    (by unfold Board.getNeighbors; exact getNeighborsCoords_nodup ..)
    cur []
  have hreachx : FloodReach b o x := (hqueue x (List.mem_cons_self ..)).1
  have hmono : ∀ p, (cur.cells p).is_revealed = true →
      ((processNeighbors cur (cur.getNeighbors x.1 x.2) []).1.cells p
        ).is_revealed = true := by
    intro p hp
    rw [(hspec p).2 (Or.inr (Or.inl hp))]
    exact hp
  have hbase : ∀ p, (b.cells p).is_revealed = true →
      (cur.cells p).is_revealed = true := by
    intro p hp
    rcases hcells p with h | ⟨-, h⟩
    · rw [h]
      exact hp
    · rw [h]
      rfl
  have hsame : ∀ p, (cur.cells p).is_revealed = false →
      cur.cells p = b.cells p := by
    intro p hp
    rcases hcells p with h | ⟨-, h⟩
    · exact h
    · rw [h] at hp
      cases hp
  have hdich : ∀ p,
      (processNeighbors cur (cur.getNeighbors x.1 x.2) []).1.cells p =
        cur.cells p ∨
      (p ∈ cur.getNeighbors x.1 x.2 ∧ (cur.cells p).is_revealed = false ∧
        (cur.cells p).is_flagged = false ∧
        (processNeighbors cur (cur.getNeighbors x.1 x.2) []).1.cells p =
          revealCell (cur.cells p)) := by
    intro p
    by_cases h1 : p ∈ cur.getNeighbors x.1 x.2
    · by_cases h2 : (cur.cells p).is_revealed = false
      · by_cases h3 : (cur.cells p).is_flagged = false
        · exact Or.inr ⟨h1, h2, h3, (hspec p).1 h1 h2 h3⟩
        · exact Or.inl ((hspec p).2 (Or.inr (Or.inr (by
            cases hf : (cur.cells p).is_flagged
            · exact absurd hf h3
            · rfl))))
      · exact Or.inl ((hspec p).2 (Or.inr (Or.inl (by
          cases hf : (cur.cells p).is_revealed
          · exact absurd hf h2
          · rfl))))
    · exact Or.inl ((hspec p).2 (Or.inl h1))
  refine ⟨by rw [hdims.1, hrow], by rw [hdims.2.1, hcol],
    by rw [hdims.2.2.1, hstate], by rw [hdims.2.2.2.1, hmines],
    by rw [hdims.2.2.2.2, hplaced], ?_, ?_, ?_, ?_⟩
  · intro y hy
    rcases List.mem_append.mp hy with hy | hy
    · obtain ⟨h1, h2⟩ := hqueue y (List.mem_cons_of_mem _ hy)
      exact ⟨h1, hmono y h2⟩
    · rcases (hmem y).mp hy with h | ⟨hyns, hyrev, hyflag, hyzero⟩
      · cases h
      · have hyb := hsame y hyrev
        refine ⟨FloodReach.step x y hreachx (hns ▸ hyns)
          (by rw [← hyb]; exact hyrev) (by rw [← hyb]; exact hyflag)
          (by rw [← hyb]; exact hyzero), ?_⟩
        rw [(hspec y).1 hyns hyrev hyflag]
        rfl
  · intro p
    rcases hdich p with h | ⟨hns2, h2, h3, h⟩
    · rw [h]
      exact hcells p
    · have hpb := hsame p h2
      rw [h, hpb]
      refine Or.inr ⟨⟨by rw [← hpb]; exact h2, by rw [← hpb]; exact h3⟩, rfl⟩
  · intro p hp
    rcases hdich p with h | ⟨hns2, h2, h3, h⟩
    · rw [h] at hp
      exact hsound p hp
    · have hpb := hsame p h2
      exact Or.inr ⟨⟨by rw [← hpb]; exact h2, by rw [← hpb]; exact h3⟩,
        x, hreachx, hns ▸ hns2⟩
  · intro z hz hznot hzr p hp hhid
    by_cases hzx : z = x
    · subst hzx
      by_cases hpcur : (cur.cells p).is_revealed = true
      · exact hmono p hpcur
      · have hpcur' : (cur.cells p).is_revealed = false := by
          cases hv : (cur.cells p).is_revealed
          · rfl
          · exact absurd hv hpcur
        have hpb := hsame p hpcur'
        have hpf : (cur.cells p).is_flagged = false := by
          rw [hpb]
          exact hhid.2
        rw [(hspec p).1 (hns ▸ hp) hpcur' hpf]
        rfl
    · have hznr : z ∉ rest := fun hc => hznot (List.mem_append.mpr (Or.inl hc))
      have hznp : z ∉ (processNeighbors cur (cur.getNeighbors x.1 x.2) []).2 :=
        fun hc => hznot (List.mem_append.mpr (Or.inr hc))
      by_cases hzc : (cur.cells z).is_revealed = true
      · have := hcomp z hz (by
          intro hc
          rcases List.mem_cons.mp hc with h | h
          · exact hzx h
          · exact hznr h) hzc p hp hhid
        exact hmono p this
      · rcases hdich z with h | ⟨hzns, hz2, hz3, h⟩
        · rw [h] at hzr
          exact absurd hzr hzc
        · have hzo : z ≠ o := by
            rintro rfl
            exact hzc (hbase z hrev)
          rcases floodReach_inv b o z hz with h' | ⟨hzrev, hzflag, hzzero, -⟩
          · exact absurd h' hzo
          · have hzb := hsame z hz2
            exact absurd ((hmem z).mpr (Or.inr ⟨hzns, hz2, hz3,
              by rw [hzb]; exact hzzero⟩)) hznp

theorem floodLoop_inv (b : Board) (o : Coord)
    (hrev : (b.cells o).is_revealed = true) :
    ∀ (n : Nat) (cur : Board) (queue : List Coord),
      2 * hiddenCount cur + queue.length ≤ n →
      FloodInv b o cur queue → FloodInv b o (floodLoop cur queue) [] := by
  intro n
  induction n with
  | zero =>
    intro cur queue hle hinv
    have hq : queue = [] := List.eq_nil_of_length_eq_zero (by omega)
    subst hq
    rw [floodLoop]
    exact hinv
  | succ n ih =>
    intro cur queue hle hinv
    rcases queue with _ | ⟨x, rest⟩
    · rw [floodLoop]
      exact hinv
    · rw [floodLoop]
      have hstep := floodInv_step b o hrev cur x rest hinv
      have hm := processNeighbors_measure (cur.getNeighbors x.1 x.2) cur []
        (getNeighbors_mem_allCoords cur x.1 x.2)
      refine ih _ _ ?_ hstep
      simp only [List.length_append, List.length_cons, List.length_nil] at *
      omega

/-- The full characterisation of `_flood_reveal` started from a revealed
zero-count cell, from which both the C6 statement and the preservation
facts used elsewhere are read off. -/
theorem floodReveal_spec (b : Board) (r c : Int)
    (hrev : (b.cells (r, c)).is_revealed = true)
    (hzero : (b.cells (r, c)).neighbor_mines = 0) :
    ((b.floodReveal r c).rows = b.rows ∧ (b.floodReveal r c).cols = b.cols ∧
      (b.floodReveal r c).state = b.state ∧
      (b.floodReveal r c).mines = b.mines ∧
      (b.floodReveal r c).mines_placed = b.mines_placed) ∧
    (∀ p, FloodTarget b (r, c) p →
      (b.floodReveal r c).cells p = revealCell (b.cells p)) ∧
    (∀ p, ¬FloodTarget b (r, c) p → (b.floodReveal r c).cells p = b.cells p) ∧
    (∀ p, FloodTarget b (r, c) p ↔
      ((p ≠ (r, c) ∧ FloodReach b (r, c) p) ∨
        (Hidden b p ∧ (b.cells p).neighbor_mines ≠ 0 ∧
          ∃ x, FloodReach b (r, c) x ∧ p ∈ b.getNeighbors x.1 x.2))) := by
  have hinv0 : FloodInv b (r, c) b [(r, c)] := by
    refine ⟨rfl, rfl, rfl, rfl, rfl, ?_, ?_, ?_, ?_⟩
    · intro y hy
      rw [List.mem_singleton] at hy
      subst hy
      exact ⟨FloodReach.origin, hrev⟩
    · intro p
      exact Or.inl rfl
    · intro p h
      exact Or.inl h
    · intro z hz hznot hzr p hp hhid
      rcases floodReach_inv b (r, c) z hz with h | ⟨hzrev, -, -, -⟩
      · exact absurd (List.mem_singleton.mpr h) hznot
      · rw [hzrev] at hzr
        cases hzr
  have hfin := floodLoop_inv b (r, c) hrev (2 * hiddenCount b + 1) b [(r, c)]
    (by simp) hinv0
  obtain ⟨hrow, hcol, hstate, hmines, hplaced, -, hcells, hsound, hcomp⟩ := hfin
  have hreach : ∀ x, FloodReach b (r, c) x →
      ((floodLoop b [(r, c)]).cells x).is_revealed = true := by
    intro x hx
    induction hx with
    | origin =>
      rcases hcells (r, c) with h | ⟨-, h⟩
      · rw [h]
        exact hrev
      · rw [h]
        rfl
    | step y p hy hadj hprev hpflag hpzero ihy =>
      exact hcomp y hy (List.not_mem_nil y) ihy p hadj ⟨hprev, hpflag⟩
  have hfr : b.floodReveal r c = floodLoop b [(r, c)] := rfl
  rw [hfr]
  refine ⟨⟨hrow, hcol, hstate, hmines, hplaced⟩, ?_, ?_, ?_⟩
  · rintro p ⟨⟨hpr, hpf⟩, x, hx, hadj⟩
    have hprev2 : ((floodLoop b [(r, c)]).cells p).is_revealed = true :=
      hcomp x hx (List.not_mem_nil x) (hreach x hx) p hadj ⟨hpr, hpf⟩
    rcases hcells p with h | ⟨-, h⟩
    · rw [h] at hprev2
      rw [hprev2] at hpr
      cases hpr
    · exact h
  · intro p hnt
    rcases hcells p with h | ⟨hhid, h⟩
    · exact h
    · have hprev2 : ((floodLoop b [(r, c)]).cells p).is_revealed = true := by
        rw [h]
        rfl
      rcases hsound p hprev2 with h' | h'
      · have hfalse := hhid.1
        rw [h'] at hfalse
        cases hfalse
      · exact absurd h' hnt
  · intro p
    constructor
    · rintro ⟨⟨hpr, hpf⟩, x, hx, hadj⟩
      by_cases hz : (b.cells p).neighbor_mines = 0
      · refine Or.inl ⟨?_, FloodReach.step x p hx hadj hpr hpf hz⟩
        rintro rfl
        rw [hrev] at hpr
        cases hpr
      · exact Or.inr ⟨⟨hpr, hpf⟩, hz, x, hx, hadj⟩
    · rintro (⟨hne, hp⟩ | ⟨hhid, -, x, hx, hadj⟩)
      · rcases floodReach_inv b (r, c) p hp with h | ⟨h1, h2, -, y, hy, hadj⟩
        · exact absurd h hne
        · exact ⟨⟨h1, h2⟩, y, hy, hadj⟩
      · exact ⟨hhid, x, hx, hadj⟩

/-- C6: the flood boundary property.  Starting `_flood_reveal` from a
revealed zero-count cell `(r, c)`: the cascade reveals exactly the flood
targets — the cells reachable from the origin through chains of adjacent,
unflagged, previously-unrevealed zero-count cells, plus the unflagged
previously-unrevealed non-zero neighbours of those zero cells (the
numbered rim; the final conjunct is this decomposition) — it changes
nothing else (in particular flagged or already-revealed cells are never
changed, and no cell beyond the rim is revealed), and it leaves the
dimensions, state, mine count and placement flag untouched. -/
theorem floodReveal_boundary (b : Board) (r c : Int)
    (hrev : (b.cells (r, c)).is_revealed = true)
    (hzero : (b.cells (r, c)).neighbor_mines = 0) :
    ((b.floodReveal r c).rows = b.rows ∧ (b.floodReveal r c).cols = b.cols ∧
      (b.floodReveal r c).state = b.state ∧
      (b.floodReveal r c).mines = b.mines ∧
      (b.floodReveal r c).mines_placed = b.mines_placed) ∧
    (∀ p, FloodTarget b (r, c) p →
      (b.floodReveal r c).cells p = revealCell (b.cells p)) ∧
    (∀ p, ¬FloodTarget b (r, c) p → (b.floodReveal r c).cells p = b.cells p) ∧
    (∀ p, FloodTarget b (r, c) p ↔
      ((p ≠ (r, c) ∧ FloodReach b (r, c) p) ∨
        (Hidden b p ∧ (b.cells p).neighbor_mines ≠ 0 ∧
          ∃ x, FloodReach b (r, c) x ∧ p ∈ b.getNeighbors x.1 x.2))) :=
  floodReveal_spec b r c hrev hzero

/-- A 1x2 board with a revealed zero at (0,0) and a hidden zero at (0,1)
for the flood witness. -/
def floodBoard : Board :=
  { rows := 1, cols := 2, mines := 0, state := "PLAYING", mines_placed := true,
    cells := fun p =>
      if p = (0, 0) then ⟨false, 0, true, false⟩
      else ⟨false, 0, false, false⟩ }

/-- Witness for C6 on `floodBoard`, whose origin (0,0) is a revealed zero
cell. -/
theorem floodReveal_boundary_witness :
    ((floodBoard.cells (0, 0)).is_revealed = true ∧
      (floodBoard.cells (0, 0)).neighbor_mines = 0) ∧
    (((floodBoard.floodReveal 0 0).rows = floodBoard.rows ∧
      (floodBoard.floodReveal 0 0).cols = floodBoard.cols ∧
      (floodBoard.floodReveal 0 0).state = floodBoard.state ∧
      (floodBoard.floodReveal 0 0).mines = floodBoard.mines ∧
      (floodBoard.floodReveal 0 0).mines_placed = floodBoard.mines_placed) ∧
    (∀ p, FloodTarget floodBoard (0, 0) p →
      (floodBoard.floodReveal 0 0).cells p =
        revealCell (floodBoard.cells p)) ∧
    (∀ p, ¬FloodTarget floodBoard (0, 0) p →
      (floodBoard.floodReveal 0 0).cells p = floodBoard.cells p) ∧
    (∀ p, FloodTarget floodBoard (0, 0) p ↔
      ((p ≠ (0, 0) ∧ FloodReach floodBoard (0, 0) p) ∨
        (Hidden floodBoard p ∧
          (floodBoard.cells p).neighbor_mines ≠ 0 ∧
          ∃ x, FloodReach floodBoard (0, 0) x ∧
            p ∈ floodBoard.getNeighbors x.1 x.2)))) :=
  ⟨⟨by decide, by decide⟩,
    floodReveal_boundary floodBoard 0 0 (by decide) (by decide)⟩

/-! ## C4: the safe-first-click invariant -/

theorem setCell_cells (b : Board) (p : Coord) (cellv : Cell) (q : Coord) :
    (b.setCell p cellv).cells q = if q = p then cellv else b.cells q := rfl

theorem placeMines_cells (b : Board) (safe : Coord) (sample : List Coord)
    (p : Coord) :
    (b.placeMines safe sample).cells p =
      if p ∈ sample then { b.cells p with is_mine := true } else b.cells p :=
  rfl

theorem calcCounts_cell_parts (b : Board) (p : Coord) :
    ((b.calculateNeighborCounts).cells p).is_mine = (b.cells p).is_mine ∧
    ((b.calculateNeighborCounts).cells p).is_revealed =
      (b.cells p).is_revealed ∧
    ((b.calculateNeighborCounts).cells p).is_flagged =
      (b.cells p).is_flagged := by
  unfold Board.calculateNeighborCounts
  dsimp only
  split <;> exact ⟨rfl, rfl, rfl⟩

theorem checkWin_fields (b : Board) :
    (b.checkWinCondition).rows = b.rows ∧
    (b.checkWinCondition).cols = b.cols ∧
    (b.checkWinCondition).mines = b.mines ∧
    (b.checkWinCondition).mines_placed = b.mines_placed ∧
    (b.checkWinCondition).cells = b.cells := by
  unfold Board.checkWinCondition
  split <;> exact ⟨rfl, rfl, rfl, rfl, rfl⟩

theorem floodReveal_preserves (b : Board) (r c : Int)
    (hrev : (b.cells (r, c)).is_revealed = true)
    (hzero : (b.cells (r, c)).neighbor_mines = 0) :
    (b.floodReveal r c).rows = b.rows ∧ (b.floodReveal r c).cols = b.cols ∧
    (b.floodReveal r c).state = b.state ∧
    (b.floodReveal r c).mines = b.mines ∧
    (b.floodReveal r c).mines_placed = b.mines_placed ∧
    ∀ p, ((b.floodReveal r c).cells p).is_mine = (b.cells p).is_mine ∧
      ((b.floodReveal r c).cells p).is_flagged = (b.cells p).is_flagged ∧
      ((b.floodReveal r c).cells p).neighbor_mines =
        (b.cells p).neighbor_mines := by
  obtain ⟨hf, htgt, hnt, -⟩ := floodReveal_spec b r c hrev hzero
  refine ⟨hf.1, hf.2.1, hf.2.2.1, hf.2.2.2.1, hf.2.2.2.2, ?_⟩
  intro p
  by_cases h : FloodTarget b (r, c) p
  · rw [htgt p h]
    exact ⟨rfl, rfl, rfl⟩
  · rw [hnt p h]
    exact ⟨rfl, rfl, rfl⟩

theorem applyAct_preserves_mines (b : Board) (a : Act)
    (hplaced : b.mines_placed = true) :
    (applyAct b a).mines_placed = true ∧
    ∀ p, ((applyAct b a).cells p).is_mine = (b.cells p).is_mine := by
  cases a with
  | flg r c =>
    show (b.flag r c).mines_placed = true ∧
      ∀ p, ((b.flag r c).cells p).is_mine = (b.cells p).is_mine
    unfold Board.flag
    dsimp only
    split
    · split
      · exact ⟨hplaced, fun p => rfl⟩
      · refine ⟨hplaced, fun p => ?_⟩
        rw [setCell_cells]
        split
        · rename_i h
          subst h
          rfl
        · rfl
    · exact ⟨hplaced, fun p => rfl⟩
  | rev r c sample =>
    show (b.reveal r c sample).mines_placed = true ∧
      ∀ p, ((b.reveal r c sample).cells p).is_mine = (b.cells p).is_mine
    unfold Board.reveal
    split
    · exact ⟨hplaced, fun p => rfl⟩
    split
    · exact ⟨hplaced, fun p => rfl⟩
    unfold Board.revealCore
    have hnp : ¬ b.mines_placed = false := by
      rw [hplaced]
      exact fun h => Bool.noConfusion h
    rw [if_neg hnp]
    dsimp only
    split
    · refine ⟨hplaced, fun p => ?_⟩
      show ((b.setCell (r, c) (revealCell (b.cells (r, c)))).cells p).is_mine =
        (b.cells p).is_mine
      rw [setCell_cells]
      split
      · rename_i h
        subst h
        rfl
      · rfl
    · rename_i hmine
      have hsetrev : ((b.setCell (r, c)
          (revealCell (b.cells (r, c)))).cells (r, c)).is_revealed = true := by
        rw [setCell_cells, if_pos rfl]
        rfl
      have hsetmine : ∀ p, ((b.setCell (r, c)
          (revealCell (b.cells (r, c)))).cells p).is_mine =
            (b.cells p).is_mine := by
        intro p
        rw [setCell_cells]
        split
        · rename_i h
          subst h
          rfl
        · rfl
      split
      · rename_i hzero
        have hsetzero : ((b.setCell (r, c)
            (revealCell (b.cells (r, c)))).cells (r, c)).neighbor_mines = 0 := by
          rw [setCell_cells, if_pos rfl]
          exact hzero
        obtain ⟨-, -, -, -, hfp, hfc⟩ :=
          floodReveal_preserves _ r c hsetrev hsetzero
        obtain ⟨-, -, -, hwp, hwc⟩ := checkWin_fields
          ((b.setCell (r, c) (revealCell (b.cells (r, c)))).floodReveal r c)
        refine ⟨by rw [hwp, hfp]; exact hplaced, fun p => ?_⟩
        rw [hwc, (hfc p).1, hsetmine p]
      · obtain ⟨-, -, -, hwp, hwc⟩ := checkWin_fields
          (b.setCell (r, c) (revealCell (b.cells (r, c))))
        refine ⟨by rw [hwp]; exact hplaced, fun p => ?_⟩
        rw [hwc, hsetmine p]

theorem applyActs_preserves_mines (acts : List Act) (b : Board)
    (hplaced : b.mines_placed = true) :
    (applyActs b acts).mines_placed = true ∧
    ∀ p, ((applyActs b acts).cells p).is_mine = (b.cells p).is_mine := by
  induction acts generalizing b with
  | nil => exact ⟨hplaced, fun p => rfl⟩
  | cons a rest ih =>
    obtain ⟨h1, h2⟩ := applyAct_preserves_mines b a hplaced
    obtain ⟨h3, h4⟩ := ih (applyAct b a) h1
    exact ⟨h3, fun p => by
      show ((applyActs (applyAct b a) rest).cells p).is_mine = _
      rw [h4 p, h2 p]⟩

/-- C4: the safe-first-click invariant.  On a board with no mines placed
(and hence no mines), revealing any in-bounds, unflagged, unrevealed cell
while the game is running leaves the clicked cell and all its in-bounds
neighbours mine-free, for every possible outcome of the random sampling
(every `sample` drawn from the candidate pool, which excludes the safe
zone); and the safe zone stays mine-free after any further sequence of
reveal/flag calls. -/
theorem safe_first_click (b : Board) (r c : Int) (sample : List Coord)
    (acts : List Act) (hplaced : b.mines_placed = false)
    (hnomine : ∀ p, (b.cells p).is_mine = false)
    (hin : 0 ≤ r ∧ r < b.rows ∧ 0 ≤ c ∧ c < b.cols)
    (hstate : b.state = "PLAYING")
    (hnrev : (b.cells (r, c)).is_revealed = false)
    (hnflag : (b.cells (r, c)).is_flagged = false)
    (hsample : ∀ p ∈ sample, p ∈ b.mineCandidates (r, c)) :
    ((applyActs (b.reveal r c sample) acts).cells (r, c)).is_mine = false ∧
    ∀ q ∈ b.getNeighbors r c,
      ((applyActs (b.reveal r c sample) acts).cells q).is_mine = false := by
  have hsafe_not_sample : ∀ p ∈ b.safeCoords (r, c), p ∉ sample := by
    intro p hp hps
    have := hsample p hps
    unfold Board.mineCandidates at this
    rw [List.mem_filter, decide_eq_true_eq] at this
    exact this.2 hp
  have hmain : (b.reveal r c sample).mines_placed = true ∧
      ∀ p ∈ b.safeCoords (r, c),
        ((b.reveal r c sample).cells p).is_mine = false := by
    unfold Board.reveal
    rw [if_neg (not_not_intro ⟨hin.1, hin.2.1, hin.2.2.1, hin.2.2.2, hstate⟩),
      if_neg (by rw [hnrev, hnflag]; exact fun h => by cases h)]
    unfold Board.revealCore
    rw [if_pos hplaced]
    dsimp only
    have hb1mine : ∀ p,
        (((b.placeMines (r, c) sample).calculateNeighborCounts).cells p
          ).is_mine = (if p ∈ sample then true else (b.cells p).is_mine) := by
      intro p
      rw [(calcCounts_cell_parts _ p).1, placeMines_cells]
      split
      · rfl
      · rfl
    have hb1safe : ∀ p ∈ b.safeCoords (r, c),
        (((b.placeMines (r, c) sample).calculateNeighborCounts).cells p
          ).is_mine = false := by
      intro p hp
      rw [hb1mine p, if_neg (hsafe_not_sample p hp)]
      exact hnomine p
    have hb1placed :
        ((b.placeMines (r, c) sample).calculateNeighborCounts).mines_placed =
          true := rfl
    set b1 := (b.placeMines (r, c) sample).calculateNeighborCounts with hb1
    split
    · refine ⟨hb1placed, fun p hp => ?_⟩
      show ((b1.setCell (r, c) (revealCell (b1.cells (r, c)))).cells p
        ).is_mine = false
      rw [setCell_cells]
      split
      · rename_i h
        subst h
        exact hb1safe (r, c) (List.mem_cons_self ..)
      · exact hb1safe p hp
    · have hsetmine : ∀ p,
          ((b1.setCell (r, c) (revealCell (b1.cells (r, c)))).cells p
            ).is_mine = (b1.cells p).is_mine := by
        intro p
        rw [setCell_cells]
        split
        · rename_i h
          subst h
          rfl
        · rfl
      have hsetrev : ((b1.setCell (r, c)
          (revealCell (b1.cells (r, c)))).cells (r, c)).is_revealed = true := by
        rw [setCell_cells, if_pos rfl]
        rfl
      split
      · rename_i hzero
        have hsetzero : ((b1.setCell (r, c)
            (revealCell (b1.cells (r, c)))).cells (r, c)).neighbor_mines =
              0 := by
          rw [setCell_cells, if_pos rfl]
          exact hzero
        obtain ⟨-, -, -, -, hfp, hfc⟩ :=
          floodReveal_preserves _ r c hsetrev hsetzero
        obtain ⟨-, -, -, hwp, hwc⟩ := checkWin_fields
          ((b1.setCell (r, c) (revealCell (b1.cells (r, c)))).floodReveal r c)
        refine ⟨by rw [hwp, hfp]; exact hb1placed, fun p hp => ?_⟩
        rw [hwc, (hfc p).1, hsetmine p]
        exact hb1safe p hp
      · obtain ⟨-, -, -, hwp, hwc⟩ := checkWin_fields
          (b1.setCell (r, c) (revealCell (b1.cells (r, c))))
        refine ⟨by rw [hwp]; exact hb1placed, fun p hp => ?_⟩
        rw [hwc, hsetmine p]
        exact hb1safe p hp
  obtain ⟨hplaced2, hsafe2⟩ := hmain
  obtain ⟨-, hmines⟩ := applyActs_preserves_mines acts _ hplaced2
  constructor
  · rw [hmines (r, c)]
    exact hsafe2 (r, c) (List.mem_cons_self ..)
  · intro q hq
    rw [hmines q]
    exact hsafe2 q (List.mem_cons_of_mem _ hq)

/-- Witness for C4: a fresh beginner board, first click at (0, 0), a
one-mine sampling outcome at (5, 5), and no further calls. -/
theorem safe_first_click_witness :
    ((Board.init none none none "beginner").mines_placed = false ∧
      (0 ≤ (0 : Int) ∧ (0 : Int) < (Board.init none none none "beginner").rows ∧
        0 ≤ (0 : Int) ∧
        (0 : Int) < (Board.init none none none "beginner").cols) ∧
      (∀ p ∈ [((5 : Int), (5 : Int))],
        p ∈ (Board.init none none none "beginner").mineCandidates (0, 0))) ∧
    (((applyActs ((Board.init none none none "beginner").reveal 0 0
        [(5, 5)]) []).cells (0, 0)).is_mine = false ∧
      ∀ q ∈ (Board.init none none none "beginner").getNeighbors 0 0,
        ((applyActs ((Board.init none none none "beginner").reveal 0 0
          [(5, 5)]) []).cells q).is_mine = false) :=
  ⟨⟨rfl, by decide, by decide⟩,
    safe_first_click (Board.init none none none "beginner") 0 0 [(5, 5)] []
      rfl (fun p => rfl) (by decide) rfl rfl rfl (by decide)⟩

/-! ## C5: the win/lose state machine -/

/-- In-bounds coordinates of a board (the cells of the Python grid). -/
abbrev InB (b : Board) (p : Coord) : Prop :=
  0 ≤ p.1 ∧ p.1 < b.rows ∧ 0 ≤ p.2 ∧ p.2 < b.cols

/-- The `neighbor_mines` field of every in-bounds non-mine cell equals the
number of mines among its neighbours (what `_calculate_neighbor_counts`
establishes). -/
def CountsOK (b : Board) : Prop :=
  ∀ p, InB b p → (b.cells p).is_mine = false →
    (b.cells p).neighbor_mines =
      (getNeighborsCoords b.rows b.cols p.1 p.2).countP
        (fun q => (b.cells q).is_mine)

/-- The state-machine invariant maintained by every `reveal`/`flag` call:
the state is one of the three legal values, dimensions are positive,
before placement the grid is empty and the game running, after placement
the counts are correct, `LOST` holds exactly when an in-bounds mine is
revealed, `WON` only when every in-bounds non-mine is revealed, a running
game always has a hidden non-mine, and out-of-bounds cells are never
revealed. -/
def StateInv (b : Board) : Prop :=
  (b.state = "PLAYING" ∨ b.state = "WON" ∨ b.state = "LOST") ∧
  (1 ≤ b.rows ∧ 1 ≤ b.cols) ∧
  (b.mines_placed = false →
    b.state = "PLAYING" ∧
    ∀ p, (b.cells p).is_mine = false ∧ (b.cells p).is_revealed = false) ∧
  (b.mines_placed = true → CountsOK b) ∧
  (b.state = "LOST" ↔
    ∃ p, InB b p ∧ (b.cells p).is_mine = true ∧
      (b.cells p).is_revealed = true) ∧
  (b.state = "WON" →
    ∀ p, InB b p → (b.cells p).is_mine = false →
      (b.cells p).is_revealed = true) ∧
  (b.state = "PLAYING" →
    ∃ p, InB b p ∧ (b.cells p).is_mine = false ∧
      (b.cells p).is_revealed = false) ∧
  (∀ p, ¬ InB b p → (b.cells p).is_revealed = false)

/-- Boards reachable from a freshly constructed board through any sequence
of `reveal`/`flag` calls (with any sampling outcomes). -/
inductive Reachable : Board → Prop where
  | base (rows cols mines : Option Int) (difficulty : String) :
      Reachable (Board.init rows cols mines difficulty)
  | step (b : Board) (a : Act) : Reachable b → Reachable (applyAct b a)

theorem standardConfig_pos (d : String) (v : Int × Int × Int)
    (h : standardConfig d = some v) : 1 ≤ v.1 ∧ 1 ≤ v.2.1 := by
  unfold standardConfig at h
  split at h
  · injection h with h2
    subst h2
    decide
  · injection h with h2
    subst h2
    decide
  · injection h with h2
    subst h2
    decide
  · cases h

theorem getConfig_dims_pos (rows cols mines : Option Int)
    (difficulty : String) :
    1 ≤ (getConfig rows cols mines difficulty).1 ∧
    1 ≤ (getConfig rows cols mines difficulty).2.1 := by
  unfold getConfig
  split
  · rename_i h
    cases hc : standardConfig difficulty with
    | none =>
      rw [hc] at h
      simp at h
    | some v =>
      exact standardConfig_pos difficulty v hc
  · split
    · exact ⟨by decide, by decide⟩
    · dsimp only
      refine ⟨?_, ?_⟩
      · cases rows with
        | none => decide
        | some r =>
          dsimp only
          split
          · rename_i h
            omega
          · decide
      · cases cols with
        | none => decide
        | some c =>
          dsimp only
          split
          · rename_i h
            omega
          · decide

theorem stateInv_init (rows cols mines : Option Int) (difficulty : String) :
    StateInv (Board.init rows cols mines difficulty) := by
  obtain ⟨h1, h2⟩ := getConfig_dims_pos rows cols mines difficulty
  refine ⟨Or.inl rfl, ⟨h1, h2⟩, ?_, ?_, ?_, ?_, ?_, ?_⟩
  · intro _
    exact ⟨rfl, fun p => ⟨rfl, rfl⟩⟩
  · intro hf
    exact Bool.noConfusion hf
  · constructor
    · intro hl
      exact absurd (show "PLAYING" = "LOST" from hl) (by decide)
    · rintro ⟨p, -, -, hrev⟩
      exact Bool.noConfusion hrev
  · intro hw
    exact absurd (show "PLAYING" = "WON" from hw) (by decide)
  · intro _
    refine ⟨(0, 0), ⟨le_refl 0, ?_, le_refl 0, ?_⟩, rfl, rfl⟩
    · exact lt_of_lt_of_le one_pos h1
    · exact lt_of_lt_of_le one_pos h2
  · intro p _
    rfl

theorem inB_transfer (b b2 : Board) (hrow : b2.rows = b.rows)
    (hcol : b2.cols = b.cols) (p : Coord) : InB b2 p ↔ InB b p := by
  unfold InB
  rw [hrow, hcol]

theorem countsOK_transfer (b b2 : Board) (hrow : b2.rows = b.rows)
    (hcol : b2.cols = b.cols)
    (hm : ∀ p, (b2.cells p).is_mine = (b.cells p).is_mine)
    (hc : ∀ p, (b2.cells p).neighbor_mines = (b.cells p).neighbor_mines)
    (h : CountsOK b) : CountsOK b2 := by
  intro p hinp hmine
  rw [hc p]
  rw [hm p] at hmine
  rw [h p ((inB_transfer b b2 hrow hcol p).mp hinp) hmine, hrow, hcol]
  exact List.countP_congr (fun q _ => by rw [hm q])

theorem stateInv_transfer (b b2 : Board) (hrow : b2.rows = b.rows)
    (hcol : b2.cols = b.cols) (hstate : b2.state = b.state)
    (hplaced : b2.mines_placed = b.mines_placed)
    (hm : ∀ p, (b2.cells p).is_mine = (b.cells p).is_mine)
    (hr : ∀ p, (b2.cells p).is_revealed = (b.cells p).is_revealed)
    (hc : ∀ p, (b2.cells p).neighbor_mines = (b.cells p).neighbor_mines)
    (h : StateInv b) : StateInv b2 := by
  obtain ⟨htri, hdims, hplace, hcnt, hlost, hwon, hplay, hoob⟩ := h
  refine ⟨by rw [hstate]; exact htri, by rw [hrow, hcol]; exact hdims,
    ?_, ?_, ?_, ?_, ?_, ?_⟩
  · intro hmp
    rw [hplaced] at hmp
    obtain ⟨hs, hcells⟩ := hplace hmp
    exact ⟨by rw [hstate]; exact hs,
      fun p => ⟨by rw [hm p]; exact (hcells p).1,
        by rw [hr p]; exact (hcells p).2⟩⟩
  · intro hmp
    rw [hplaced] at hmp
    exact countsOK_transfer b b2 hrow hcol hm hc (hcnt hmp)
  · rw [hstate, hlost]
    constructor
    · rintro ⟨p, hinp, h1, h2⟩
      exact ⟨p, (inB_transfer b b2 hrow hcol p).mpr hinp,
        by rw [hm p]; exact h1, by rw [hr p]; exact h2⟩
    · rintro ⟨p, hinp, h1, h2⟩
      exact ⟨p, (inB_transfer b b2 hrow hcol p).mp hinp,
        by rw [hm p] at h1; exact h1, by rw [hr p] at h2; exact h2⟩
  · intro hw p hinp hmine
    rw [hr p]
    exact hwon (by rw [hstate] at hw; exact hw) p
      ((inB_transfer b b2 hrow hcol p).mp hinp)
      (by rw [hm p] at hmine; exact hmine)
  · intro hp
    obtain ⟨p, hinp, h1, h2⟩ := hplay (by rw [hstate] at hp; exact hp)
    exact ⟨p, (inB_transfer b b2 hrow hcol p).mpr hinp,
      by rw [hm p]; exact h1, by rw [hr p]; exact h2⟩
  · intro p hnin
    rw [hr p]
    exact hoob p (fun hin2 => hnin ((inB_transfer b b2 hrow hcol p).mpr hin2))

theorem setCell_reveal_parts (b : Board) (o p : Coord) :
    ((b.setCell o (revealCell (b.cells o))).cells p).is_mine =
      (b.cells p).is_mine ∧
    ((b.setCell o (revealCell (b.cells o))).cells p).is_flagged =
      (b.cells p).is_flagged ∧
    ((b.setCell o (revealCell (b.cells o))).cells p).neighbor_mines =
      (b.cells p).neighbor_mines ∧
    ((b.setCell o (revealCell (b.cells o))).cells p).is_revealed =
      (if p = o then true else (b.cells p).is_revealed) := by
  rw [setCell_cells]
  split
  · rename_i h
    subst h
    exact ⟨rfl, rfl, rfl, rfl⟩
  · exact ⟨rfl, rfl, rfl, rfl⟩

theorem placeCalc_cell_parts (b : Board) (safe : Coord) (sample : List Coord)
    (p : Coord) :
    (((b.placeMines safe sample).calculateNeighborCounts).cells p
      ).is_revealed = (b.cells p).is_revealed ∧
    (((b.placeMines safe sample).calculateNeighborCounts).cells p
      ).is_flagged = (b.cells p).is_flagged := by
  constructor
  · rw [(calcCounts_cell_parts _ p).2.1, placeMines_cells]
    split
    · rfl
    · rfl
  · rw [(calcCounts_cell_parts _ p).2.2, placeMines_cells]
    split
    · rfl
    · rfl

theorem calcCounts_countsOK (b : Board) :
    CountsOK b.calculateNeighborCounts := by
  intro p hinp hmine
  have hbm : (b.cells p).is_mine = false := by
    rw [← (calcCounts_cell_parts b p).1]
    exact hmine
  have hin2 : 0 ≤ p.1 ∧ p.1 < b.rows ∧ 0 ≤ p.2 ∧ p.2 < b.cols := hinp
  have hcell : b.calculateNeighborCounts.cells p =
      { b.cells p with
        neighbor_mines :=
          (getNeighborsCoords b.rows b.cols p.1 p.2).countP
            (fun q => (b.cells q).is_mine) } := by
    unfold Board.calculateNeighborCounts
    dsimp only
    rw [if_pos ⟨hin2, hbm⟩]
  rw [hcell]
  exact List.countP_congr
    (fun q _ => by rw [(calcCounts_cell_parts b q).1])

theorem getNeighbors_inB (b : Board) (r c : Int) (q : Coord)
    (hq : q ∈ b.getNeighbors r c) : InB b q :=
  (mem_allCoords' _ _ q).mp (getNeighbors_mem_allCoords b r c q hq)

theorem no_mine_neighbors (b : Board) (x : Coord) (hcOK : CountsOK b)
    (hinx : InB b x) (hm : (b.cells x).is_mine = false)
    (hz : (b.cells x).neighbor_mines = 0) :
    ∀ q ∈ b.getNeighbors x.1 x.2, (b.cells q).is_mine = false := by
  intro q hq
  have hcount := hcOK x hinx hm
  rw [hz] at hcount
  have h0 := List.countP_eq_zero.mp hcount.symm q hq
  cases hb : (b.cells q).is_mine
  · rfl
  · exact absurd hb h0

theorem floodReach_safe (b : Board) (o : Coord) (hcOK : CountsOK b)
    (hino : InB b o) (hmo : (b.cells o).is_mine = false)
    (hzo : (b.cells o).neighbor_mines = 0) :
    ∀ x, FloodReach b o x → InB b x ∧ (b.cells x).is_mine = false ∧
      (b.cells x).neighbor_mines = 0 := by
  intro x hx
  induction hx with
  | origin => exact ⟨hino, hmo, hzo⟩
  | step y p hy hadj hprev hpflag hpzero ih =>
    obtain ⟨hyin, hym, hyz⟩ := ih
    exact ⟨getNeighbors_inB b y.1 y.2 p hadj,
      no_mine_neighbors b y hcOK hyin hym hyz p hadj, hpzero⟩

theorem floodTarget_safe (b : Board) (o : Coord) (hcOK : CountsOK b)
    (hino : InB b o) (hmo : (b.cells o).is_mine = false)
    (hzo : (b.cells o).neighbor_mines = 0) (p : Coord)
    (hT : FloodTarget b o p) : (b.cells p).is_mine = false := by
  obtain ⟨-, x, hx, hadj⟩ := hT
  obtain ⟨hxin, hxm, hxz⟩ := floodReach_safe b o hcOK hino hmo hzo x hx
  exact no_mine_neighbors b x hcOK hxin hxm hxz p hadj

theorem checkWin_state (b : Board) :
    (b.checkWinCondition.state = "WON" ∧
      ∀ p, InB b p → (b.cells p).is_mine = false →
        (b.cells p).is_revealed = true) ∨
    (b.checkWinCondition.state = b.state ∧
      ∃ p, InB b p ∧ (b.cells p).is_mine = false ∧
        (b.cells p).is_revealed = false) := by
  unfold Board.checkWinCondition
  split
  · rename_i h
    left
    refine ⟨rfl, fun p hinp hm => ?_⟩
    have hmem : p ∈ allCoords b.rows b.cols := (mem_allCoords' _ _ p).mpr hinp
    have h0 := List.countP_eq_zero.mp h p hmem
    cases hb : (b.cells p).is_revealed
    · exfalso
      apply h0
      rw [hb, hm]
      rfl
    · rfl
  · rename_i h
    right
    refine ⟨rfl, ?_⟩
    obtain ⟨p, hmem, hp⟩ :=
      List.countP_pos_iff.mp (Nat.pos_of_ne_zero h)
    simp only [Bool.and_eq_true, Bool.not_eq_true'] at hp
    exact ⟨p, (mem_allCoords' _ _ p).mp hmem, hp.2, hp.1⟩

theorem inv_checkWin (C : Board)
    (hdims : 1 ≤ C.rows ∧ 1 ≤ C.cols)
    (hstate : C.state = "PLAYING")
    (hplaced : C.mines_placed = true)
    (hcOK : CountsOK C)
    (hnorevmine : ∀ p, (C.cells p).is_mine = true →
      (C.cells p).is_revealed = false)
    (hoob : ∀ p, ¬ InB C p → (C.cells p).is_revealed = false) :
    StateInv C.checkWinCondition := by
  obtain ⟨hrw, hcl, -, hmp, hcc⟩ := checkWin_fields C
  have hcnt2 : CountsOK C.checkWinCondition :=
    countsOK_transfer C _ hrw hcl (fun p => by rw [hcc])
      (fun p => by rw [hcc]) hcOK
  have hlostR : ¬∃ p, InB C.checkWinCondition p ∧
      (C.checkWinCondition.cells p).is_mine = true ∧
      (C.checkWinCondition.cells p).is_revealed = true := by
    rintro ⟨p, -, h1, h2⟩
    rw [hcc] at h1 h2
    rw [hnorevmine p h1] at h2
    cases h2
  rcases checkWin_state C with ⟨hs, hall⟩ | ⟨hs, p0, hin0, hm0, hr0⟩
  · refine ⟨Or.inr (Or.inl hs), by rw [hrw, hcl]; exact hdims, ?_,
      fun _ => hcnt2, ?_, ?_, ?_, ?_⟩
    · intro hf
      rw [hmp, hplaced] at hf
      cases hf
    · constructor
      · intro hl
        rw [hs] at hl
        exact absurd hl (by decide)
      · intro hex
        exact absurd hex hlostR
    · intro _ p hinp hmp2
      rw [hcc]
      rw [hcc] at hmp2
      exact hall p ((inB_transfer C _ hrw hcl p).mp hinp) hmp2
    · intro hp
      rw [hs] at hp
      exact absurd hp (by decide)
    · intro p hnin
      rw [hcc]
      exact hoob p (fun hin2 => hnin ((inB_transfer C _ hrw hcl p).mpr hin2))
  · refine ⟨Or.inl (by rw [hs, hstate]), by rw [hrw, hcl]; exact hdims, ?_,
      fun _ => hcnt2, ?_, ?_, ?_, ?_⟩
    · intro hf
      rw [hmp, hplaced] at hf
      cases hf
    · constructor
      · intro hl
        rw [hs, hstate] at hl
        exact absurd hl (by decide)
      · intro hex
        exact absurd hex hlostR
    · intro hw
      rw [hs, hstate] at hw
      exact absurd hw (by decide)
    · intro _
      exact ⟨p0, (inB_transfer C _ hrw hcl p0).mpr hin0,
        by rw [hcc]; exact hm0, by rw [hcc]; exact hr0⟩
    · intro p hnin
      rw [hcc]
      exact hoob p (fun hin2 => hnin ((inB_transfer C _ hrw hcl p).mpr hin2))

theorem inv_revealBody (B : Board) (r c : Int)
    (hdims : 1 ≤ B.rows ∧ 1 ≤ B.cols)
    (hstate : B.state = "PLAYING")
    (hplaced : B.mines_placed = true)
    (hcOK : CountsOK B)
    (hnorevmine : ∀ p, (B.cells p).is_mine = true →
      (B.cells p).is_revealed = false)
    (hoob : ∀ p, ¬ InB B p → (B.cells p).is_revealed = false)
    (hin : 0 ≤ r ∧ r < B.rows ∧ 0 ≤ c ∧ c < B.cols) :
    StateInv (if (B.cells (r, c)).is_mine then
      { B.setCell (r, c) (revealCell (B.cells (r, c))) with state := "LOST" }
    else
      (if (B.cells (r, c)).neighbor_mines = 0 then
        (B.setCell (r, c) (revealCell (B.cells (r, c)))).floodReveal r c
      else B.setCell (r, c) (revealCell (B.cells (r, c)))
        ).checkWinCondition) := by
  have hparts := fun p => setCell_reveal_parts B (r, c) p
  split
  · rename_i hmine
    refine ⟨Or.inr (Or.inr rfl), hdims, ?_, ?_, ?_, ?_, ?_, ?_⟩
    · intro hf
      have hf2 : B.mines_placed = false := hf
      rw [hplaced] at hf2
      cases hf2
    · intro _
      exact countsOK_transfer B _ rfl rfl (fun p => (hparts p).1)
        (fun p => (hparts p).2.2.1) hcOK
    · constructor
      · intro _
        refine ⟨(r, c), hin, ?_, ?_⟩
        · show ((B.setCell (r, c) (revealCell (B.cells (r, c)))).cells
            (r, c)).is_mine = true
          rw [(hparts (r, c)).1]
          exact hmine
        · show ((B.setCell (r, c) (revealCell (B.cells (r, c)))).cells
            (r, c)).is_revealed = true
          rw [(hparts (r, c)).2.2.2, if_pos rfl]
      · intro _
        rfl
    · intro hw
      exact absurd (show "LOST" = "WON" from hw) (by decide)
    · intro hp
      exact absurd (show "LOST" = "PLAYING" from hp) (by decide)
    · intro p hnin
      show ((B.setCell (r, c) (revealCell (B.cells (r, c)))).cells
        p).is_revealed = false
      rw [(hparts p).2.2.2]
      have hne : ¬ p = (r, c) := by
        intro he
        subst he
        exact hnin hin
      rw [if_neg hne]
      exact hoob p hnin
  · rename_i hmine
    have hm0 : (B.cells (r, c)).is_mine = false := by
      cases hb : (B.cells (r, c)).is_mine
      · rfl
      · exact absurd hb hmine
    have hB2cOK : CountsOK (B.setCell (r, c) (revealCell (B.cells (r, c)))) :=
      countsOK_transfer B _ rfl rfl (fun p => (hparts p).1)
        (fun p => (hparts p).2.2.1) hcOK
    have hB2norevmine : ∀ p,
        ((B.setCell (r, c) (revealCell (B.cells (r, c)))).cells
          p).is_mine = true →
        ((B.setCell (r, c) (revealCell (B.cells (r, c)))).cells
          p).is_revealed = false := by
      intro p hm1
      rw [(hparts p).1] at hm1
      rw [(hparts p).2.2.2]
      have hne : ¬ p = (r, c) := by
        intro he
        rw [he, hm0] at hm1
        cases hm1
      rw [if_neg hne]
      exact hnorevmine p hm1
    have hB2oob : ∀ p,
        ¬ InB (B.setCell (r, c) (revealCell (B.cells (r, c)))) p →
        ((B.setCell (r, c) (revealCell (B.cells (r, c)))).cells
          p).is_revealed = false := by
      intro p hnin
      rw [(hparts p).2.2.2]
      have hne : ¬ p = (r, c) := by
        intro he
        subst he
        exact hnin hin
      rw [if_neg hne]
      exact hoob p hnin
    split
    · rename_i hz
      have hrev2 : ((B.setCell (r, c) (revealCell (B.cells (r, c)))).cells
          (r, c)).is_revealed = true := by
        rw [(hparts (r, c)).2.2.2, if_pos rfl]
      have hz2 : ((B.setCell (r, c) (revealCell (B.cells (r, c)))).cells
          (r, c)).neighbor_mines = 0 := by
        rw [(hparts (r, c)).2.2.1]
        exact hz
      have hm2 : ((B.setCell (r, c) (revealCell (B.cells (r, c)))).cells
          (r, c)).is_mine = false := by
        rw [(hparts (r, c)).1]
        exact hm0
      obtain ⟨hfr, hfc, hfs, -, hfp, hfcell⟩ :=
        floodReveal_preserves
          (B.setCell (r, c) (revealCell (B.cells (r, c)))) r c hrev2 hz2
      obtain ⟨-, -, hfnt, -⟩ :=
        floodReveal_spec
          (B.setCell (r, c) (revealCell (B.cells (r, c)))) r c hrev2 hz2
      apply inv_checkWin
      · rw [hfr, hfc]
        exact hdims
      · rw [hfs]
        exact hstate
      · rw [hfp]
        exact hplaced
      · exact countsOK_transfer _ _ hfr hfc (fun p => (hfcell p).1)
          (fun p => (hfcell p).2.2) hB2cOK
      · intro p hm1
        have hm1b : ((B.setCell (r, c) (revealCell (B.cells (r, c)))).cells
            p).is_mine = true := by
          rw [← (hfcell p).1]
          exact hm1
        have hnt : ¬ FloodTarget
            (B.setCell (r, c) (revealCell (B.cells (r, c)))) (r, c) p := by
          intro ht
          have hsafe := floodTarget_safe
            (B.setCell (r, c) (revealCell (B.cells (r, c)))) (r, c)
            hB2cOK hin hm2 hz2 p ht
          rw [hsafe] at hm1b
          cases hm1b
        rw [hfnt p hnt]
        exact hB2norevmine p hm1b
      · intro p hnin
        have hnin2 : ¬ InB
            (B.setCell (r, c) (revealCell (B.cells (r, c)))) p := by
          intro hin2
          exact hnin ((inB_transfer _ _ hfr hfc p).mpr hin2)
        have hnt : ¬ FloodTarget
            (B.setCell (r, c) (revealCell (B.cells (r, c)))) (r, c) p := by
          rintro ⟨-, x, hx, hadj⟩
          exact hnin2 (getNeighbors_inB _ x.1 x.2 p hadj)
        rw [hfnt p hnt]
        exact hB2oob p hnin2
    · apply inv_checkWin
      · exact hdims
      · exact hstate
      · exact hplaced
      · exact hB2cOK
      · exact hB2norevmine
      · exact hB2oob

theorem inv_revealCore (b : Board) (r c : Int) (sample : List Coord)
    (h : StateInv b)
    (hin : 0 ≤ r ∧ r < b.rows ∧ 0 ≤ c ∧ c < b.cols)
    (hstate : b.state = "PLAYING") :
    StateInv (b.revealCore r c sample) := by
  obtain ⟨htri, hdims, hplace, hcnt, hlost, hwon, hplay, hoob⟩ := h
  unfold Board.revealCore
  by_cases hmp : b.mines_placed = false
  · rw [if_pos hmp]
    dsimp only
    obtain ⟨-, hcells⟩ := hplace hmp
    apply inv_revealBody
    · exact hdims
    · exact hstate
    · rfl
    · exact calcCounts_countsOK (b.placeMines (r, c) sample)
    · intro p _
      rw [(placeCalc_cell_parts b (r, c) sample p).1]
      exact (hcells p).2
    · intro p _
      rw [(placeCalc_cell_parts b (r, c) sample p).1]
      exact (hcells p).2
    · exact hin
  · rw [if_neg hmp]
    dsimp only
    have hpt : b.mines_placed = true := by
      cases hb : b.mines_placed
      · exact absurd hb hmp
      · rfl
    apply inv_revealBody
    · exact hdims
    · exact hstate
    · exact hpt
    · exact hcnt hpt
    · intro p hm1
      by_cases hinp : InB b p
      · cases hb : (b.cells p).is_revealed
        · rfl
        · exfalso
          have hl := hlost.mpr ⟨p, hinp, hm1, hb⟩
          rw [hstate] at hl
          exact absurd hl (by decide)
      · exact hoob p hinp
    · exact hoob
    · exact hin

theorem inv_applyAct (b : Board) (a : Act) (h : StateInv b) :
    StateInv (applyAct b a) := by
  cases a with
  | flg r c =>
    show StateInv (b.flag r c)
    unfold Board.flag
    dsimp only
    split
    · split
      · exact h
      · refine stateInv_transfer b _ rfl rfl rfl rfl ?_ ?_ ?_ h
        · intro p
          rw [setCell_cells]
          split
          · rename_i e
            subst e
            rfl
          · rfl
        · intro p
          rw [setCell_cells]
          split
          · rename_i e
            subst e
            rfl
          · rfl
        · intro p
          rw [setCell_cells]
          split
          · rename_i e
            subst e
            rfl
          · rfl
    · exact h
  | rev r c sample =>
    show StateInv (b.reveal r c sample)
    unfold Board.reveal
    split
    · exact h
    · rename_i hguard
      split
      · exact h
      · have hgd := not_not.mp hguard
        exact inv_revealCore b r c sample h
          ⟨hgd.1, hgd.2.1, hgd.2.2.1, hgd.2.2.2.1⟩ hgd.2.2.2.2

theorem reachable_inv (b : Board) (h : Reachable b) : StateInv b := by
  induction h with
  | base rows cols mines difficulty =>
    exact stateInv_init rows cols mines difficulty
  | step b2 a hb ih => exact inv_applyAct b2 a ih

theorem applyAct_terminal (b : Board) (a : Act)
    (hne : ¬ b.state = "PLAYING") : applyAct b a = b := by
  cases a with
  | rev r c sample =>
    show b.reveal r c sample = b
    unfold Board.reveal
    have hc : ¬(0 ≤ r ∧ r < b.rows ∧ 0 ≤ c ∧ c < b.cols ∧
        b.state = "PLAYING") := fun hcon => hne hcon.2.2.2.2
    rw [if_pos hc]
  | flg r c =>
    show b.flag r c = b
    unfold Board.flag
    have hc : ¬(b.state = "PLAYING" ∧ 0 ≤ r ∧ r < b.rows ∧ 0 ≤ c ∧
        c < b.cols) := fun hcon => hne hcon.1
    rw [if_neg hc]

/-- C5: the win/lose state machine.  In every board reachable from a fresh
board by `reveal`/`flag` calls: the state is exactly one of `PLAYING`,
`WON`, `LOST`; once the state is not `PLAYING` every further `reveal` or
`flag` call leaves the board unchanged (terminal); the state is `WON` iff
every in-bounds non-mine cell is revealed and the game has not reached
`LOST`; and the state is `LOST` iff some in-bounds mine cell is
revealed. -/
theorem state_machine (b : Board) (hr : Reachable b) :
    (b.state = "PLAYING" ∨ b.state = "WON" ∨ b.state = "LOST") ∧
    (¬ b.state = "PLAYING" → ∀ a, applyAct b a = b) ∧
    (b.state = "WON" ↔
      (∀ p, InB b p → (b.cells p).is_mine = false →
        (b.cells p).is_revealed = true) ∧ ¬ b.state = "LOST") ∧
    (b.state = "LOST" ↔
      ∃ p, InB b p ∧ (b.cells p).is_mine = true ∧
        (b.cells p).is_revealed = true) := by
  obtain ⟨htri, -, -, -, hlost, hwon, hplay, -⟩ := reachable_inv b hr
  refine ⟨htri, fun hne a => applyAct_terminal b a hne, ?_, hlost⟩
  constructor
  · intro hw
    refine ⟨hwon hw, ?_⟩
    rw [hw]
    decide
  · rintro ⟨hall, hnl⟩
    rcases htri with hs | hs | hs
    · obtain ⟨p, hinp, hm1, hr1⟩ := hplay hs
      rw [hall p hinp hm1] at hr1
      cases hr1
    · exact hs
    · exact absurd hs hnl

/-- Witness for C5 at a freshly constructed beginner board, reachable by
the empty call sequence. -/
theorem state_machine_witness :
    ((Board.init none none none "beginner").state = "PLAYING" ∨
      (Board.init none none none "beginner").state = "WON" ∨
      (Board.init none none none "beginner").state = "LOST") ∧
    (¬ (Board.init none none none "beginner").state = "PLAYING" →
      ∀ a, applyAct (Board.init none none none "beginner") a =
        Board.init none none none "beginner") ∧
    ((Board.init none none none "beginner").state = "WON" ↔
      (∀ p, InB (Board.init none none none "beginner") p →
        ((Board.init none none none "beginner").cells p).is_mine = false →
        ((Board.init none none none "beginner").cells p).is_revealed =
          true) ∧
      ¬ (Board.init none none none "beginner").state = "LOST") ∧
    ((Board.init none none none "beginner").state = "LOST" ↔
      ∃ p, InB (Board.init none none none "beginner") p ∧
        ((Board.init none none none "beginner").cells p).is_mine = true ∧
        ((Board.init none none none "beginner").cells p).is_revealed =
          true) :=
  state_machine (Board.init none none none "beginner")
    (Reachable.base none none none "beginner")

/-! ## C1: the early-exit policy.

`solve_step` calls `_find_subset_deductions` unconditionally, so the claimed
"return trivial moves immediately, do not attempt subset reasoning" policy
does not hold: subset-only moves are appended after the trivial ones. -/

/-- C1, counterexample: on `earlyExitBoard` the trivial rules fire (the move
list of the trivial phase is non-empty), and yet `solve_step` also returns
the move `(1, 2, REVEAL)`, which only the subset rule derives — so the
returned list is not the trivial move list and subset reasoning was
attempted in the same call. -/
theorem solve_step_no_early_exit :
    (trivialPhase earlyExitBoard).1 ≠ [] ∧
    ((1 : Int), (2 : Int), "REVEAL") ∈ solve_step earlyExitBoard ∧
    ((1 : Int), (2 : Int), "REVEAL") ∉ (trivialPhase earlyExitBoard).1 := by
  refine ⟨by decide, by decide, by decide⟩

/-- C1, amended: `solve_step` never exits early.  On every board it runs the
subset phase after the trivial flag/reveal rules, and returns the trivial
move list extended (in place, deduplicated) with the subset-derived
moves. -/
theorem solve_step_runs_subset_after_trivial (b : Board) :
    ∃ t, solve_step b = (trivialPhase b).1 ++ t :=
  findSubsetDeductions_extends b (trivialPhase b).2 (trivialPhase b).1

/-! ## C8: silent no-op error handling. -/

/-- C8: if `(r, c)` is out of bounds or the game is not `"PLAYING"`, both
`reveal` and `flag` return the board unchanged (hence every field, including
every cell, is unchanged, and no error is raised — the functions are total);
if additionally the target cell is already revealed or flagged, `reveal`
returns the board unchanged. -/
theorem reveal_flag_noop (b : Board) (r c : Int) (sample : List Coord) :
    ((¬(0 ≤ r ∧ r < b.rows ∧ 0 ≤ c ∧ c < b.cols) ∨ b.state ≠ "PLAYING") →
      b.reveal r c sample = b ∧ b.flag r c = b) ∧
    (((b.cells (r, c)).is_revealed = true ∨ (b.cells (r, c)).is_flagged = true) →
      b.reveal r c sample = b) := by
  constructor
  · intro h
    constructor
    · unfold Board.reveal
      rw [if_pos]
      tauto
    · unfold Board.flag
      rw [if_neg]
      tauto
  · intro h
    unfold Board.reveal
    by_cases hg : ¬(0 ≤ r ∧ r < b.rows ∧ 0 ≤ c ∧ c < b.cols ∧ b.state = "PLAYING")
    · rw [if_pos hg]
    · rw [if_neg hg, if_pos (by rcases h with h | h <;> simp [h])]

/-- Witness for C8 at a fresh beginner board and the out-of-bounds
coordinate `(-1, 0)`. -/
theorem reveal_flag_noop_witness :
    (¬(0 ≤ (-1 : Int) ∧ (-1 : Int) < (Board.init none none none "beginner").rows ∧
        0 ≤ (0 : Int) ∧ (0 : Int) < (Board.init none none none "beginner").cols) ∨
      (Board.init none none none "beginner").state ≠ "PLAYING") ∧
    ((Board.init none none none "beginner").reveal (-1) 0 [] =
        Board.init none none none "beginner" ∧
      (Board.init none none none "beginner").flag (-1) 0 =
        Board.init none none none "beginner") :=
  ⟨by decide, (reveal_flag_noop _ _ _ _).1 (by decide)⟩

/-! ## C7: configuration resolution.

Part (3) of the claim fails: when `rows` and `cols` are both absent,
`_get_config` returns the preset (or the beginner default) and ignores a
supplied `mines` value entirely. -/

/-- C7, counterexample: with `difficulty="beginner"`, no rows/cols and
`mines=0` supplied, the resolved configuration keeps the preset's 10 mines
instead of `clamp(0, 0, 80) = 0`. -/
theorem getConfig_ignores_mines_counterexample :
    getConfig none none (some 0) "beginner" = (9, 9, 10) ∧
    (getConfig none none (some 0) "beginner").2.2 ≠
      max 0 (min 0 (9 * 9 - 1)) := by
  refine ⟨by decide, by decide⟩

/-- C7, amended: (1) a known difficulty with rows and cols both absent
resolves to the preset (any supplied mines value is ignored); (2) positive
custom dimensions with mines absent resolve to
`clamp(floor(rows*cols*0.15), 0, rows*cols-1)` mines; (3) a supplied mines
value is clamped to `[0, rows*cols-1]` of the resolved dimensions whenever
at least one of rows/cols is supplied (otherwise it is ignored, per the
counterexample). -/
theorem getConfig_resolution :
    (∀ (d : String) (cfg : Int × Int × Int) (mines : Option Int),
        standardConfig d = some cfg → getConfig none none mines d = cfg) ∧
    (∀ (r c : Int) (d : String), 0 < r → 0 < c →
        getConfig (some r) (some c) none d =
          (r, c, max 0 (min (3 * (r * c) / 20) (r * c - 1)))) ∧
    (∀ (rows cols : Option Int) (m : Int) (d : String),
        rows ≠ none ∨ cols ≠ none →
        (getConfig rows cols (some m) d).2.2 =
          max 0 (min m ((getConfig rows cols (some m) d).1 *
            (getConfig rows cols (some m) d).2.1 - 1))) := by
  refine ⟨?_, ?_, ?_⟩
  · intro d cfg mines h
    unfold getConfig
    rw [if_pos ⟨by rw [h]; rfl, rfl, rfl⟩, h]
    rfl
  · intro r c d hr hc
    unfold getConfig
    rw [if_neg (by simp), if_neg (by simp)]
    simp only [if_pos hr, if_pos hc]
    rw [Prod.mk.injEq, Prod.mk.injEq]
    refine ⟨rfl, rfl, ?_⟩
    split <;> split <;> omega
  · intro rows cols m d h
    unfold getConfig
    rw [if_neg (by rcases h with h | h <;> simp [h]),
      if_neg (by rcases h with h | h <;> simp [h])]
    dsimp only
    split <;> split <;> omega

/-- Witness for C7 (amended) at concrete configurations: the intermediate
preset with an (ignored) mines argument, custom 4x5 with computed mines, and
a supplied mine count 99 clamped for resolved dimensions 4x9. -/
theorem getConfig_resolution_witness :
    (standardConfig "intermediate" = some (16, 16, 40) ∧
      getConfig none none (some 3) "intermediate" = (16, 16, 40)) ∧
    (0 < (4 : Int) ∧ 0 < (5 : Int) ∧
      getConfig (some 4) (some 5) none "x" =
        (4, 5, max 0 (min (3 * (4 * 5) / 20) (4 * 5 - 1)))) ∧
    ((some (4 : Int) ≠ (none : Option Int) ∨ (none : Option Int) ≠
        (none : Option Int)) ∧
      (getConfig (some 4) none (some 99) "beginner").2.2 =
        max 0 (min 99 ((getConfig (some 4) none (some 99) "beginner").1 *
          (getConfig (some 4) none (some 99) "beginner").2.1 - 1))) :=
  ⟨⟨rfl, getConfig_resolution.1 "intermediate" (16, 16, 40) (some 3) rfl⟩,
    ⟨by decide, by decide,
      getConfig_resolution.2.1 4 5 "x" (by decide) (by decide)⟩,
    ⟨Or.inl (by simp),
      getConfig_resolution.2.2 (some 4) none 99 "beginner" (Or.inl (by simp))⟩⟩

end Minemind
